import Mathlib

/-!
# SHA-1 digest engine (`sha1.cpp`): shallow embedding and verification

The engine of `sha1.hpp` is embedded as pure functions on an explicit state.

* `uint32_t` / `uint64_t` values are natural numbers, reduced `% 2^32` /
  `% 2^64` wherever the C++ arithmetic wraps.
* `uint8_t` values are natural numbers; a well-formed byte is `< 256`.
* `uint32_t digest[5]` is a record of five words, `std::vector<uint8_t>` is a
  `List Nat`, `uint32_t block[16]` is a `List Nat` read with `getD` and
  written with `set`.
* The five locals `a..e` of `transform` together with the pointer array `p`
  are kept as a list of values and a list of indices into it.
* `update` returns an `Except`: the read cursor leaving `data` is undefined
  behaviour in C++ and is reported as `Fault.cursorPastEnd`.
* `size_t` is 64 bits wide and the host is little-endian.

The reference SHA-1 (`refDigest`) is written from the specification: padding
by concatenation, blocks by slicing, an 80-word message schedule and five
named working registers. The main results relate the two.
-/

namespace SHA1

/-! ## Constants and state -/

/-- Number of 32-bit integers per SHA-1 block (`BLOCK_INTS`). -/
def BLOCK_INTS : Nat := 16

/-- Number of bytes per SHA-1 block (`BLOCK_BYTES`). -/
def BLOCK_BYTES : Nat := BLOCK_INTS * 4

/-- The member `uint32_t digest[5]`. -/
structure Digest where
  h0 : Nat
  h1 : Nat
  h2 : Nat
  h3 : Nat
  h4 : Nat
deriving DecidableEq, Repr

/-- The data members of `class SHA1`. -/
structure Engine where
  digest : Digest
  buffer : List Nat
  transforms : Nat
deriving DecidableEq, Repr

/-- Ways in which the loop of `update` can fail to return normally. -/
inductive Fault where
  | cursorPastEnd
  | outOfFuel
deriving DecidableEq, Repr

/-- The private `SHA1::reset(digest, buffer, transforms)`: every member is overwritten. -/
def resetMembers (_digest : Digest) (_buffer : List Nat) (_transforms : Nat) : Engine :=
  { digest := { h0 := 0x67452301, h1 := 0xefcdab89, h2 := 0x98badcfe,
                h3 := 0x10325476, h4 := 0xc3d2e1f0 },
    buffer := [],
    transforms := 0 }

/-- The public `SHA1::reset()`. -/
def reset (s : Engine) : Engine :=
  resetMembers s.digest s.buffer s.transforms

/-- The constructor `SHA1::SHA1()`: it calls `reset()` on the members, whose
prior content is indeterminate and is passed here as a parameter. -/
def construct (uninit : Engine) : Engine :=
  reset uninit

/-- A freshly constructed engine. -/
def fresh : Engine :=
  construct { digest := { h0 := 0, h1 := 0, h2 := 0, h3 := 0, h4 := 0 }, buffer := [], transforms := 0 }

/-! ## Round primitives -/

/-- The function `SHA1::rol`, on 32-bit operands. -/
def rol (value bits : Nat) : Nat :=
  ((value <<< bits) % 2 ^ 32 ||| value >>> (32 - bits)) % 2 ^ 32

/-- The function `SHA1::blk`. -/
def blk (block : List Nat) (i : Nat) : Nat :=
  rol (block.getD ((i + 13) &&& 15) 0 ^^^ block.getD ((i + 8) &&& 15) 0
        ^^^ block.getD ((i + 2) &&& 15) 0 ^^^ block.getD i 0) 1

/-- Result of one round call: the block array and the two by-reference arguments. -/
structure RoundOut where
  block : List Nat
  w : Nat
  z : Nat

/-- The function `SHA1::R0`. -/
def R0 (block : List Nat) (v w x y z i : Nat) : RoundOut :=
  let z := (z + (((w &&& (x ^^^ y)) ^^^ y) + block.getD i 0 + 0x5a827999 + rol v 5)) % 2 ^ 32
  let w := rol w 30
  { block := block, w := w, z := z }

/-- The function `SHA1::R1`. -/
def R1 (block : List Nat) (v w x y z i : Nat) : RoundOut :=
  let block := block.set i (blk block i)
  let z := (z + (((w &&& (x ^^^ y)) ^^^ y) + block.getD i 0 + 0x5a827999 + rol v 5)) % 2 ^ 32
  let w := rol w 30
  { block := block, w := w, z := z }

/-- The function `SHA1::R2`. -/
def R2 (block : List Nat) (v w x y z i : Nat) : RoundOut :=
  let block := block.set i (blk block i)
  let z := (z + ((w ^^^ x ^^^ y) + block.getD i 0 + 0x6ed9eba1 + rol v 5)) % 2 ^ 32
  let w := rol w 30
  { block := block, w := w, z := z }

/-- The function `SHA1::R3`. -/
def R3 (block : List Nat) (v w x y z i : Nat) : RoundOut :=
  let block := block.set i (blk block i)
  let z := (z + ((((w ||| x) &&& y) ||| (w &&& x)) + block.getD i 0 + 0x8f1bbcdc + rol v 5)) % 2 ^ 32
  let w := rol w 30
  { block := block, w := w, z := z }

/-- The function `SHA1::R4`. -/
def R4 (block : List Nat) (v w x y z i : Nat) : RoundOut :=
  let block := block.set i (blk block i)
  let z := (z + ((w ^^^ x ^^^ y) + block.getD i 0 + 0xca62c1d6 + rol v 5)) % 2 ^ 32
  let w := rol w 30
  { block := block, w := w, z := z }

/-! ## The block transform -/

/-- Locals of `transform`: the variables `a..e` (as `vars[0..4]`), the pointer
array `p` (each entry is the index of the variable it points to) and the block. -/
structure Work where
  vars : List Nat
  p : List Nat
  block : List Nat

/-- The expression `*(p[k])`. -/
def Work.deref (st : Work) (k : Nat) : Nat :=
  st.vars.getD (st.p.getD k 0) 0

/-- The lambda `rolBlk` of `transform`. -/
def rolBlk (st : Work) : Work :=
  let pr := st.p.getD 4 0
  let p := st.p.set 4 (st.p.getD 3 0)
  let p := p.set 3 (p.getD 2 0)
  let p := p.set 2 (p.getD 1 0)
  let p := p.set 1 (p.getD 0 0)
  let p := p.set 0 pr
  { st with p := p }

/-- One loop body `R(block, *(p[0]), *(p[1]), *(p[2]), *(p[3]), *(p[4]), i); rolBlk();`.
The arguments `v`, `x`, `y` are passed by value, `w` and `z` by reference: the
callee's assignments are written back through `p[4]` and `p[1]`. -/
def roundCall (R : List Nat → Nat → Nat → Nat → Nat → Nat → Nat → RoundOut)
    (st : Work) (i : Nat) : Work :=
  let out := R st.block (st.deref 0) (st.deref 1) (st.deref 2) (st.deref 3) (st.deref 4) i
  let vars := st.vars.set (st.p.getD 4 0) out.z
  let vars := vars.set (st.p.getD 1 0) out.w
  rolBlk { st with vars := vars, block := out.block }

/-- A loop `for (int i = lo; i < lo + n; i++) { R(...); rolBlk(); }`. -/
def roundLoop (R : List Nat → Nat → Nat → Nat → Nat → Nat → Nat → RoundOut)
    (lo n : Nat) (st : Work) : Work :=
  (List.range' lo n).foldl (roundCall R) st

/-- The function `SHA1::transform`: returns the new digest, the block array as
left behind (it is extended in place) and the incremented counter. -/
def transform (digest : Digest) (block : List Nat) (transforms : Nat) :
    Digest × List Nat × Nat :=
  let st : Work :=
    { vars := [digest.h0, digest.h1, digest.h2, digest.h3, digest.h4],
      p := [0, 1, 2, 3, 4],
      block := block }
  let st := roundLoop R0 0 16 st
  let st := roundLoop R1 0 4 st
  let st := roundLoop R2 4 12 st
  let st := roundLoop R2 0 8 st
  let st := roundLoop R3 8 8 st
  let st := roundLoop R3 0 12 st
  let st := roundLoop R4 12 4 st
  let st := roundLoop R4 0 16 st
  let digest : Digest :=
    { h0 := (digest.h0 + st.vars.getD 0 0) % 2 ^ 32,
      h1 := (digest.h1 + st.vars.getD 1 0) % 2 ^ 32,
      h2 := (digest.h2 + st.vars.getD 2 0) % 2 ^ 32,
      h3 := (digest.h3 + st.vars.getD 3 0) % 2 ^ 32,
      h4 := (digest.h4 + st.vars.getD 4 0) % 2 ^ 32 }
  (digest, st.block, (transforms + 1) % 2 ^ 64)

/-- The function `SHA1::buffer_to_block`. -/
def buffer_to_block (buffer : List Nat) : List Nat :=
  (List.range BLOCK_INTS).map fun i =>
    ((buffer.getD (4 * i + 3) 0 &&& 0xff)
      ||| (buffer.getD (4 * i + 2) 0 &&& 0xff) <<< 8
      ||| (buffer.getD (4 * i + 1) 0 &&& 0xff) <<< 16
      ||| (buffer.getD (4 * i + 0) 0 &&& 0xff) <<< 24) % 2 ^ 32

/-! ## update -/

/-- The `while (true)` loop of `SHA1::update`, with the iterator `idx` as an
offset into `data`. Each unit of fuel pays for one iteration. The offset never
exceeds `data.length` on entry, so `std::distance(idx, data.end())` is
`data.length - idx`. Advancing `idx` beyond `data.end()` is undefined
behaviour and ends the run with `Fault.cursorPastEnd`. -/
def updateLoop (data : List Nat) : Nat → Nat → Engine → Except Fault Engine
  | 0, _, _ => .error .outOfFuel
  | fuel + 1, idx, s =>
    let remains := min (data.length - idx) BLOCK_BYTES
    let buffer := s.buffer ++ (data.drop idx).take remains
    if buffer.length ≠ BLOCK_BYTES then
      .ok { s with buffer := buffer }
    else
      let block := buffer_to_block buffer
      let r := transform s.digest block s.transforms
      let s : Engine := { digest := r.1, buffer := [], transforms := r.2.2 }
      if idx + BLOCK_BYTES ≤ data.length then
        updateLoop data fuel (idx + BLOCK_BYTES) s
      else
        .error .cursorPastEnd

/-- The function `SHA1::update`. An iteration that continues consumes 64 bytes
of `data`, so `data.length / 64 + 2` iterations are never exhausted. -/
def update (s : Engine) (data : List Nat) : Except Fault Engine :=
  updateLoop data (data.length / BLOCK_BYTES + 2) 0 s

/-! ## final -/

/-- The loop `while (buffer.size() < BLOCK_BYTES) buffer.push_back(0x00);`. -/
def padLoop : Nat → List Nat → Option (List Nat)
  | 0, _ => none
  | fuel + 1, buffer =>
    if buffer.length < BLOCK_BYTES then padLoop fuel (buffer ++ [0x00]) else some buffer

/-- The loop `for (i = 0; i < BLOCK_INTS - 2; i++) block[i] = 0;`. -/
def zeroLoop (block : List Nat) : List Nat :=
  (List.range (BLOCK_INTS - 2)).foldl (fun blk i => blk.set i 0) block

/-- The builtin `__builtin_bswap32`: the four bytes of a 32-bit word in reverse order. -/
def bswap32 (x : Nat) : Nat :=
  (x % 256) * 2 ^ 24 + (x / 2 ^ 8 % 256) * 2 ^ 16 + (x / 2 ^ 16 % 256) * 2 ^ 8 + x / 2 ^ 24 % 256

/-- The four bytes found at `reinterpret_cast<uint8_t *>(&swapped)`, lowest
address first, on a little-endian host. -/
def wordBytes (swapped : Nat) : List Nat :=
  [swapped % 256, swapped / 2 ^ 8 % 256, swapped / 2 ^ 16 % 256, swapped / 2 ^ 24 % 256]

/-- The result loop of `final`: `for (i = 0; i < 5; i++)` appending the bytes of
`__builtin_bswap32(digest[i])`. -/
def serialize (digest : Digest) : List Nat :=
  [digest.h0, digest.h1, digest.h2, digest.h3, digest.h4].foldl
    (fun result w => result ++ wordBytes (bswap32 w)) []

/-- The function `SHA1::final` with the fuel of its padding loop explicit:
returns the digest bytes and the engine state left behind. -/
def finalFuel (fuel : Nat) (s : Engine) : Option (List Nat × Engine) :=
  let total_bits := ((s.transforms * BLOCK_BYTES % 2 ^ 64 + s.buffer.length) % 2 ^ 64 * 8) % 2 ^ 64
  let buffer := s.buffer ++ [0x80]
  let orig_size := buffer.length
  match padLoop fuel buffer with
  | none => none
  | some buffer =>
    let block := buffer_to_block buffer
    let r : Digest × List Nat × Nat :=
      if orig_size > BLOCK_BYTES - 8 then
        let r := transform s.digest block s.transforms
        (r.1, zeroLoop r.2.1, r.2.2)
      else
        (s.digest, block, s.transforms)
    let block := r.2.1.set (BLOCK_INTS - 1) (total_bits % 2 ^ 32)
    let block := block.set (BLOCK_INTS - 2) (total_bits >>> 32 % 2 ^ 32)
    let r := transform r.1 block r.2.2
    let result := serialize r.1
    some (result, reset { digest := r.1, buffer := buffer, transforms := r.2.2 })

/-- The function `SHA1::final`. The padding loop runs at most `BLOCK_BYTES`
times, so `BLOCK_BYTES + 1` units of fuel always suffice. -/
def final (s : Engine) : Option (List Nat × Engine) :=
  finalFuel (BLOCK_BYTES + 1) s

/-- What one call of `final` does, as recorded by `finalTrace`. -/
structure FinalTrace where
  result : List Nat
  state : Engine
  total_bits : Nat
  blocks : List (List Nat)
  digest : Digest

/-- The function `SHA1::final` instrumented: the statements of `finalFuel`,
recording in addition the value of `total_bits`, the content of `block` at
each call of `transform` (in call order) and `digest` after the last call. -/
def finalTrace (fuel : Nat) (s : Engine) : Option FinalTrace :=
  let total_bits := ((s.transforms * BLOCK_BYTES % 2 ^ 64 + s.buffer.length) % 2 ^ 64 * 8) % 2 ^ 64
  let buffer := s.buffer ++ [0x80]
  let orig_size := buffer.length
  match padLoop fuel buffer with
  | none => none
  | some buffer =>
    let block := buffer_to_block buffer
    let r : Digest × List Nat × Nat × List (List Nat) :=
      if orig_size > BLOCK_BYTES - 8 then
        let r := transform s.digest block s.transforms
        (r.1, zeroLoop r.2.1, r.2.2, [block])
      else
        (s.digest, block, s.transforms, [])
    let block := r.2.1.set (BLOCK_INTS - 1) (total_bits % 2 ^ 32)
    let block := block.set (BLOCK_INTS - 2) (total_bits >>> 32 % 2 ^ 32)
    let calls := r.2.2.2 ++ [block]
    let r := transform r.1 block r.2.2.1
    let result := serialize r.1
    some (FinalTrace.mk result (reset (Engine.mk r.1 buffer r.2.2)) total_bits calls r.1)

/-- One lowercase hexadecimal digit, as printed by the conversion `%x`. -/
def hexDigit (d : Nat) : Char :=
  if d < 10 then Char.ofNat (48 + d) else Char.ofNat (87 + d)

/-- The printing loop of `main` in `demo_sha1.cpp`: `printf("%02x", hash[i])`
for each byte of the digest. -/
def toHex (hash : List Nat) : String :=
  String.mk (hash.foldr (fun b acc => hexDigit (b / 16) :: hexDigit (b % 16) :: acc) [])

/-! ## Call sequences and the demo driver -/

deriving instance DecidableEq for Except

/-- The state after the calls `update(S1); ...; update(Sn)` on engine `s`. -/
def updateAll (s : Engine) : List (List Nat) → Except Fault Engine
  | [] => .ok s
  | piece :: rest =>
    match update s piece with
    | .ok s => updateAll s rest
    | .error f => .error f

/-- The digest returned by `update(S1); ...; update(Sn); final()` on engine `s`. -/
def digestOf (s : Engine) (pieces : List (List Nat)) : Except Fault (Option (List Nat)) :=
  match updateAll s pieces with
  | .ok s => .ok ((final s).map fun r => r.1)
  | .error f => .error f

/-- The `main` of `demo_sha1.cpp`: the hexadecimal text it prints for the
digest of the three bytes `a`, `b`, `c`. -/
def demo_main : Except Fault (Option String) :=
  let input : List Nat := ['a', 'b', 'c'].map Char.toNat
  match update fresh input with
  | .ok checksum => .ok ((final checksum).map fun r => toHex r.1)
  | .error f => .error f

/-! ## Reference SHA-1, following the specification -/

/-- Working registers `(a, b, c, d, e)` of the reference compression function. -/
structure Regs where
  a : Nat
  b : Nat
  c : Nat
  d : Nat
  e : Nat
deriving DecidableEq, Repr

/-- Mixing function of round `t`, one per stage of 20 rounds. -/
def refF (t b c d : Nat) : Nat :=
  if t < 20 then (b &&& (c ^^^ d)) ^^^ d
  else if t < 40 then b ^^^ c ^^^ d
  else if t < 60 then (b &&& c) ||| (b &&& d) ||| (c &&& d)
  else b ^^^ c ^^^ d

/-- Additive constant of round `t`, one per stage of 20 rounds. -/
def refK (t : Nat) : Nat :=
  if t < 20 then 0x5A827999
  else if t < 40 then 0x6ED9EBA1
  else if t < 60 then 0x8F1BBCDC
  else 0xCA62C1D6

/-- One step of the message-schedule recurrence: append
`W[t] = rotl1(W[t-3] xor W[t-8] xor W[t-14] xor W[t-16])`. -/
def refExtend (w : List Nat) (t : Nat) : List Nat :=
  w ++ [rol (w.getD (t - 3) 0 ^^^ w.getD (t - 8) 0 ^^^ w.getD (t - 14) 0 ^^^ w.getD (t - 16) 0) 1]

/-- The schedule after `n` extension steps: words `W[0] .. W[15 + n]`. -/
def refScheduleUpTo (block : List Nat) (n : Nat) : List Nat :=
  (List.range' 16 n).foldl refExtend block

/-- The 80-word message schedule `W[0..79]` of a 16-word block. -/
def refSchedule (block : List Nat) : List Nat :=
  refScheduleUpTo block 64

/-- Round `t`: `(a,b,c,d,e) := (rotl5(a) + f_t(b,c,d) + e + W[t] + K_t, a, rotl30(b), c, d)`. -/
def refRound (W : List Nat) (r : Regs) (t : Nat) : Regs :=
  { a := (rol r.a 5 + refF t r.b r.c r.d + r.e + W.getD t 0 + refK t) % 2 ^ 32,
    b := r.a,
    c := rol r.b 30,
    d := r.c,
    e := r.d }

/-- The working registers after the first `n` rounds. -/
def refRounds (W : List Nat) (n : Nat) (r : Regs) : Regs :=
  (List.range n).foldl (refRound W) r

/-- The standard SHA-1 compression function: 80 rounds over the schedule of the
block, then each digest word is incremented by its working register. -/
def refCompress (H : Digest) (block : List Nat) : Digest :=
  let r := refRounds (refSchedule block) 80
    { a := H.h0, b := H.h1, c := H.h2, d := H.h3, e := H.h4 }
  { h0 := (H.h0 + r.a) % 2 ^ 32,
    h1 := (H.h1 + r.b) % 2 ^ 32,
    h2 := (H.h2 + r.c) % 2 ^ 32,
    h3 := (H.h3 + r.d) % 2 ^ 32,
    h4 := (H.h4 + r.e) % 2 ^ 32 }

/-- The five initialization constants. -/
def refInit : Digest :=
  { h0 := 0x67452301, h1 := 0xEFCDAB89, h2 := 0x98BADCFE, h3 := 0x10325476, h4 := 0xC3D2E1F0 }

/-- Number of zero bytes of the padding of an `n`-byte message: the fewest `k`
that make `n + 1 + k + 8` a multiple of 64. -/
def refZeros (n : Nat) : Nat :=
  (64 - (n + 9) % 64) % 64

/-- The 64-bit big-endian encoding of `L`. -/
def refBE64 (L : Nat) : List Nat :=
  [L / 2 ^ 56 % 256, L / 2 ^ 48 % 256, L / 2 ^ 40 % 256, L / 2 ^ 32 % 256,
   L / 2 ^ 24 % 256, L / 2 ^ 16 % 256, L / 2 ^ 8 % 256, L % 256]

/-- The padded message `S ++ [0x80] ++ zeros ++ (64-bit big-endian bit length of S)`. -/
def refPad (S : List Nat) : List Nat :=
  S ++ [0x80] ++ List.replicate (refZeros S.length) 0 ++ refBE64 (8 * S.length)

/-- Big-endian decoding of the 16 words of a 64-byte block. -/
def refWords (bytes : List Nat) : List Nat :=
  (List.range 16).map fun i =>
    bytes.getD (4 * i) 0 * 2 ^ 24 + bytes.getD (4 * i + 1) 0 * 2 ^ 16
      + bytes.getD (4 * i + 2) 0 * 2 ^ 8 + bytes.getD (4 * i + 3) 0

/-- The consecutive 64-byte blocks of a message, each decoded into 16 words. -/
def refBlocks (msg : List Nat) : List (List Nat) :=
  (List.range (msg.length / 64)).map fun i => refWords ((msg.drop (64 * i)).take 64)

/-- Big-endian serialization of a 32-bit word. -/
def refWordBE (w : Nat) : List Nat :=
  [w / 2 ^ 24 % 256, w / 2 ^ 16 % 256, w / 2 ^ 8 % 256, w % 256]

/-- The reference SHA-1 digest of a byte sequence. -/
def refDigest (S : List Nat) : List Nat :=
  let H := (refBlocks (refPad S)).foldl refCompress refInit
  refWordBE H.h0 ++ refWordBE H.h1 ++ refWordBE H.h2 ++ refWordBE H.h3 ++ refWordBE H.h4

/-! ## Auxiliary definitions for the proofs -/

/-- The round function called in round `t` of `transform`. -/
def roundKind (t : Nat) : List Nat → Nat → Nat → Nat → Nat → Nat → Nat → RoundOut :=
  if t < 16 then R0 else if t < 20 then R1 else if t < 40 then R2 else if t < 60 then R3 else R4

/-- The pointer array after `j` calls of `rolBlk`. -/
def ptrAfter (j : Nat) : List Nat :=
  (List.range 5).map fun k => (k + 4 * j) % 5

/-- The registers seen through the pointer array. -/
def Work.view (st : Work) : Regs :=
  { a := st.deref 0, b := st.deref 1, c := st.deref 2, d := st.deref 3, e := st.deref 4 }

/-- Rounds `T .. T + n - 1` of `transform` as one loop over the round number. -/
def codeRoundsFrom (T n : Nat) (st : Work) : Work :=
  (List.range' T n).foldl (fun st t => roundCall (roundKind t) st (t % 16)) st

/-- The locals of `transform` on entry to the first loop. -/
def initWork (digest : Digest) (block : List Nat) : Work :=
  { vars := [digest.h0, digest.h1, digest.h2, digest.h3, digest.h4], p := [0, 1, 2, 3, 4],
    block := block }

/-- The block array after `n` rounds holds the sixteen most recent schedule words. -/
def BlockInv (W : List Nat) (n : Nat) (blk : List Nat) : Prop :=
  blk.length = 16 ∧
    ∀ s, s < max n 16 → max n 16 ≤ s + 16 → blk.getD (s % 16) 0 = W.getD s 0

/-- The consecutive 64-byte blocks of a message, each decoded by `f`. -/
def blocksWith (f : List Nat → List Nat) (msg : List Nat) : List (List Nat) :=
  (List.range (msg.length / 64)).map fun i => f ((msg.drop (64 * i)).take 64)

/-- Folding `transform` over a list of blocks: digest words and block counter. -/
def foldTransform (acc : Digest × Nat) (blocks : List (List Nat)) : Digest × Nat :=
  blocks.foldl (fun acc b => ((transform acc.1 b acc.2).1, (transform acc.1 b acc.2).2.2)) acc

/-- Big-endian value of the four bytes at offset `4 * i`. -/
def wordAt (bytes : List Nat) (i : Nat) : Nat :=
  bytes.getD (4 * i) 0 * 2 ^ 24 + bytes.getD (4 * i + 1) 0 * 2 ^ 16
    + bytes.getD (4 * i + 2) 0 * 2 ^ 8 + bytes.getD (4 * i + 3) 0

/-- The bit count computed on entry to `final`, in 64-bit arithmetic. -/
def totalBits (s : Engine) : Nat :=
  ((s.transforms * BLOCK_BYTES % 2 ^ 64 + s.buffer.length) % 2 ^ 64 * 8) % 2 ^ 64

/-- The buffer of `final` after the terminator byte and the zero padding. -/
def paddedBuffer (s : Engine) : List Nat :=
  s.buffer ++ [0x80] ++ List.replicate (63 - s.buffer.length) 0

/-- The block of `final` once the bit length is stored in words 14 and 15. -/
def withLength (block : List Nat) (tb : Nat) : List Nat :=
  (block.set 15 (tb % 2 ^ 32)).set 14 (tb >>> 32 % 2 ^ 32)

end SHA1

/-! # Theorems -/

namespace SHA1

/-! ## The block transform computes the reference compression function -/

theorem maj_eq (w x y : Nat) :
    ((w ||| x) &&& y) ||| (w &&& x) = (w &&& x) ||| (w &&& y) ||| (x &&& y) := by
  apply Nat.eq_of_testBit_eq
  intro i
  simp only [Nat.testBit_or, Nat.testBit_and]
  cases w.testBit i <;> cases x.testBit i <;> cases y.testBit i <;> rfl

theorem and15 (x : Nat) : x &&& 15 = x % 16 :=
  Nat.and_pow_two_sub_one_eq_mod x 4

theorem codeRoundsFrom_add (T m n : Nat) (st : Work) :
    codeRoundsFrom T (m + n) st = codeRoundsFrom (T + m) n (codeRoundsFrom T m st) := by
  unfold codeRoundsFrom
  rw [← List.foldl_append, List.range'_append_1, Nat.add_comm n m]

theorem codeRoundsFrom_succ (T n : Nat) (st : Work) :
    codeRoundsFrom T (n + 1) st
      = roundCall (roundKind (T + n)) (codeRoundsFrom T n st) ((T + n) % 16) := by
  rw [codeRoundsFrom_add]
  simp [codeRoundsFrom, List.range']

theorem roundLoop_eq (R : List Nat → Nat → Nat → Nat → Nat → Nat → Nat → RoundOut)
    (n : Nat) : ∀ (lo T : Nat) (st : Work),
    (∀ k, k < n → roundKind (T + k) = R ∧ (T + k) % 16 = lo + k) →
    roundLoop R lo n st = codeRoundsFrom T n st := by
  induction n with
  | zero => intro lo T st _; rfl
  | succ n ih =>
    intro lo T st h
    have h0 := h 0 (Nat.succ_pos n)
    simp only [Nat.add_zero] at h0
    have hrec := ih (lo + 1) (T + 1) (roundCall R st lo) (fun k hk => by
      have := h (k + 1) (Nat.succ_lt_succ hk)
      have e : T + 1 + k = T + (k + 1) := by omega
      rw [e]
      exact ⟨this.1, by omega⟩)
    simp only [roundLoop, codeRoundsFrom, List.range', List.foldl] at hrec ⊢
    rw [h0.1, h0.2]
    exact hrec

theorem roundKind_R0 {t : Nat} (h : t < 16) : roundKind t = R0 := by
  simp [roundKind, h]

theorem roundKind_R1 {t : Nat} (h1 : 16 ≤ t) (h2 : t < 20) : roundKind t = R1 := by
  simp [roundKind, Nat.not_lt.mpr h1, h2]

theorem roundKind_R2 {t : Nat} (h1 : 20 ≤ t) (h2 : t < 40) : roundKind t = R2 := by
  have : ¬ t < 16 := by omega
  simp [roundKind, Nat.not_lt.mpr h1, h2, this]

theorem roundKind_R3 {t : Nat} (h1 : 40 ≤ t) (h2 : t < 60) : roundKind t = R3 := by
  have : ¬ t < 16 := by omega
  have : ¬ t < 20 := by omega
  simp [roundKind, Nat.not_lt.mpr h1, h2, *]

theorem roundKind_R4 {t : Nat} (h1 : 60 ≤ t) : roundKind t = R4 := by
  have : ¬ t < 16 := by omega
  have : ¬ t < 20 := by omega
  have : ¬ t < 40 := by omega
  simp [roundKind, Nat.not_lt.mpr h1, *]

theorem transform_as_codeRounds (digest : Digest) (block : List Nat) (transforms : Nat) :
    transform digest block transforms =
      (let st := codeRoundsFrom 0 80 (initWork digest block)
       ({ h0 := (digest.h0 + st.vars.getD 0 0) % 2 ^ 32,
          h1 := (digest.h1 + st.vars.getD 1 0) % 2 ^ 32,
          h2 := (digest.h2 + st.vars.getD 2 0) % 2 ^ 32,
          h3 := (digest.h3 + st.vars.getD 3 0) % 2 ^ 32,
          h4 := (digest.h4 + st.vars.getD 4 0) % 2 ^ 32 }, st.block, (transforms + 1) % 2 ^ 64)) := by
  have e : codeRoundsFrom 0 80 = fun st =>
      roundLoop R4 0 16 (roundLoop R4 12 4 (roundLoop R3 0 12 (roundLoop R3 8 8
        (roundLoop R2 0 8 (roundLoop R2 4 12 (roundLoop R1 0 4 (roundLoop R0 0 16 st))))))) := by
    funext st
    rw [roundLoop_eq R0 16 0 0 st (fun k hk => ⟨roundKind_R0 (by omega), by omega⟩),
      roundLoop_eq R1 4 0 16 _ (fun k hk => ⟨roundKind_R1 (by omega) (by omega), by omega⟩),
      roundLoop_eq R2 12 4 20 _ (fun k hk => ⟨roundKind_R2 (by omega) (by omega), by omega⟩),
      roundLoop_eq R2 8 0 32 _ (fun k hk => ⟨roundKind_R2 (by omega) (by omega), by omega⟩),
      roundLoop_eq R3 8 8 40 _ (fun k hk => ⟨roundKind_R3 (by omega) (by omega), by omega⟩),
      roundLoop_eq R3 12 0 48 _ (fun k hk => ⟨roundKind_R3 (by omega) (by omega), by omega⟩),
      roundLoop_eq R4 4 12 60 _ (fun k hk => ⟨roundKind_R4 (by omega), by omega⟩),
      roundLoop_eq R4 16 0 64 _ (fun k hk => ⟨roundKind_R4 (by omega), by omega⟩)]
    rw [← codeRoundsFrom_add 60 4 16, ← codeRoundsFrom_add 48 12 20, ← codeRoundsFrom_add 40 8 32,
      ← codeRoundsFrom_add 32 8 40, ← codeRoundsFrom_add 20 12 48, ← codeRoundsFrom_add 16 4 60,
      ← codeRoundsFrom_add 0 16 64]
  rw [e]
  rfl

theorem ptrAfter_mod (j : Nat) : ptrAfter j = ptrAfter (j % 5) := by
  unfold ptrAfter
  apply List.map_congr_left
  intro k _
  omega

theorem list_length_five {α : Type} (l : List α) (h : l.length = 5) :
    ∃ v0 v1 v2 v3 v4, l = [v0, v1, v2, v3, v4] := by
  match l, h with
  | [v0, v1, v2, v3, v4], _ => exact ⟨v0, v1, v2, v3, v4, rfl⟩

/-- Effect of one round call on the pointer array, the variables seen through
it and the block, for any round function. -/
theorem roundCall_view (R : List Nat → Nat → Nat → Nat → Nat → Nat → Nat → RoundOut)
    (st : Work) (i j : Nat) (hp : st.p = ptrAfter j) (hv : st.vars.length = 5) :
    (roundCall R st i).p = ptrAfter (j + 1) ∧ (roundCall R st i).vars.length = 5 ∧
    (roundCall R st i).block
      = (R st.block st.view.a st.view.b st.view.c st.view.d st.view.e i).block ∧
    (roundCall R st i).view =
      { a := (R st.block st.view.a st.view.b st.view.c st.view.d st.view.e i).z,
        b := st.view.a,
        c := (R st.block st.view.a st.view.b st.view.c st.view.d st.view.e i).w,
        d := st.view.c,
        e := st.view.d } := by
  obtain ⟨vars, p, block⟩ := st
  obtain ⟨v0, v1, v2, v3, v4, rfl⟩ := list_length_five vars hv
  simp only at hp
  subst hp
  rw [ptrAfter_mod j, ptrAfter_mod (j + 1)]
  have hj : j % 5 < 5 := Nat.mod_lt _ (by decide)
  have hj1 : (j + 1) % 5 = (j % 5 + 1) % 5 := by omega
  rw [hj1]
  generalize j % 5 = r at hj
  interval_cases r <;>
    simp [roundCall, rolBlk, Work.deref, Work.view, ptrAfter, List.range, List.range.loop]

/-! ### The message schedule -/

theorem refScheduleUpTo_succ (block : List Nat) (n : Nat) :
    refScheduleUpTo block (n + 1) = refExtend (refScheduleUpTo block n) (16 + n) := by
  simp [refScheduleUpTo, List.range'_concat, List.foldl_append]

theorem refScheduleUpTo_length (block : List Nat) (hb : block.length = 16) (n : Nat) :
    (refScheduleUpTo block n).length = 16 + n := by
  induction n with
  | zero => simpa [refScheduleUpTo] using hb
  | succ n ih => rw [refScheduleUpTo_succ]; simp [refExtend, ih]; omega

theorem refScheduleUpTo_getD_stable (block : List Nat) (hb : block.length = 16) (n t : Nat)
    (ht : t < 16 + n) (m : Nat) :
    (refScheduleUpTo block (n + m)).getD t 0 = (refScheduleUpTo block n).getD t 0 := by
  induction m with
  | zero => rfl
  | succ m ih =>
    rw [← Nat.add_assoc, refScheduleUpTo_succ, ← ih]
    unfold refExtend
    rw [List.getD_append]
    rw [refScheduleUpTo_length block hb]
    omega

theorem refSchedule_low (block : List Nat) (hb : block.length = 16) (t : Nat) (ht : t < 16) :
    (refSchedule block).getD t 0 = block.getD t 0 := by
  have := refScheduleUpTo_getD_stable block hb 0 t (by omega) 64
  simpa [refSchedule, refScheduleUpTo] using this

theorem refSchedule_high (block : List Nat) (hb : block.length = 16) (t : Nat)
    (h1 : 16 ≤ t) (h2 : t < 80) :
    (refSchedule block).getD t 0 =
      rol ((refSchedule block).getD (t - 3) 0 ^^^ (refSchedule block).getD (t - 8) 0
        ^^^ (refSchedule block).getD (t - 14) 0 ^^^ (refSchedule block).getD (t - 16) 0) 1 := by
  have stab : ∀ s, s < t → (refSchedule block).getD s 0
      = (refScheduleUpTo block (t - 16)).getD s 0 := by
    intro s hs
    have := refScheduleUpTo_getD_stable block hb (t - 16) s (by omega) (64 - (t - 16))
    have e : t - 16 + (64 - (t - 16)) = 64 := by omega
    rw [e] at this
    exact this
  have top : (refSchedule block).getD t 0 = (refScheduleUpTo block (t - 16 + 1)).getD t 0 := by
    have := refScheduleUpTo_getD_stable block hb (t - 16 + 1) t (by omega) (64 - (t - 16 + 1))
    have e : t - 16 + 1 + (64 - (t - 16 + 1)) = 64 := by omega
    rw [e] at this
    exact this
  rw [top, refScheduleUpTo_succ, stab (t - 3) (by omega), stab (t - 8) (by omega),
    stab (t - 14) (by omega), stab (t - 16) (by omega)]
  have e : 16 + (t - 16) = t := by omega
  rw [e]
  unfold refExtend
  have hl := refScheduleUpTo_length block hb (t - 16)
  rw [List.getD_append_right _ _ _ _ (by omega)]
  have e2 : t - (refScheduleUpTo block (t - 16)).length = 0 := by omega
  rw [e2]
  rfl

/-! ### The round invariant -/

theorem refRounds_succ (W : List Nat) (n : Nat) (r : Regs) :
    refRounds W (n + 1) r = refRound W (refRounds W n r) n := by
  simp [refRounds, List.range_succ, List.foldl_append]

theorem blockInv_extend (block : List Nat) (hb : block.length = 16) (n : Nat)
    (h1 : 16 ≤ n) (h2 : n < 80) (cur : List Nat)
    (hc : BlockInv (refSchedule block) n cur) :
    blk cur (n % 16) = (refSchedule block).getD n 0 ∧
    BlockInv (refSchedule block) (n + 1) (cur.set (n % 16) (blk cur (n % 16))) := by
  obtain ⟨hlen, hwin⟩ := hc
  have hmax : max n 16 = n := by omega
  rw [hmax] at hwin
  have hv : blk cur (n % 16) = (refSchedule block).getD n 0 := by
    rw [refSchedule_high block hb n h1 h2]
    unfold blk
    rw [and15, and15, and15]
    have e3 : (n % 16 + 13) % 16 = (n - 3) % 16 := by omega
    have e8 : (n % 16 + 8) % 16 = (n - 8) % 16 := by omega
    have e14 : (n % 16 + 2) % 16 = (n - 14) % 16 := by omega
    have e16 : n % 16 = (n - 16) % 16 := by omega
    rw [e3, e8, e14, e16, hwin (n - 3) (by omega) (by omega), hwin (n - 8) (by omega) (by omega),
      hwin (n - 14) (by omega) (by omega), hwin (n - 16) (by omega) (by omega)]
  refine ⟨hv, by simpa using hlen, ?_⟩
  intro s hs1 hs2
  have hmax1 : max (n + 1) 16 = n + 1 := by omega
  rw [hmax1] at hs1 hs2
  by_cases hsn : s = n
  · subst hsn
    rw [List.getD_eq_getElem?_getD, List.getElem?_set_self (by omega)]
    exact hv
  · have hne : n % 16 ≠ s % 16 := by omega
    rw [List.getD_eq_getElem?_getD, List.getElem?_set_ne hne, ← List.getD_eq_getElem?_getD]
    exact hwin s (by omega) (by omega)

theorem set_getD_self (l : List Nat) (i v : Nat) (h : i < l.length) :
    (l.set i v).getD i 0 = v := by
  rw [List.getD_eq_getElem?_getD, List.getElem?_set_self h]
  rfl

theorem round_sum (a f e w k : Nat) :
    (e + (f + w + k + a)) % 2 ^ 32 = (a + f + e + w + k) % 2 ^ 32 := by
  have h : e + (f + w + k + a) = a + f + e + w + k := by omega
  rw [h]

theorem codeRounds_inv (digest : Digest) (block : List Nat) (hb : block.length = 16) (n : Nat)
    (hn : n ≤ 80) :
    (codeRoundsFrom 0 n (initWork digest block)).p = ptrAfter n ∧
    (codeRoundsFrom 0 n (initWork digest block)).vars.length = 5 ∧
    (codeRoundsFrom 0 n (initWork digest block)).view
      = refRounds (refSchedule block) n
          { a := digest.h0, b := digest.h1, c := digest.h2, d := digest.h3, e := digest.h4 } ∧
    BlockInv (refSchedule block) n (codeRoundsFrom 0 n (initWork digest block)).block := by
  induction n with
  | zero =>
    refine ⟨rfl, rfl, rfl, hb, ?_⟩
    intro s hs1 hs2
    have hs : s < 16 := by simpa using hs1
    rw [Nat.mod_eq_of_lt hs, refSchedule_low block hb s hs]
    rfl
  | succ n ih =>
    obtain ⟨hp, hv, hview, hblk⟩ := ih (by omega)
    rw [codeRoundsFrom_succ, Nat.zero_add, refRounds_succ, ← hview]
    generalize codeRoundsFrom 0 n _ = st at hp hv hview hblk ⊢
    obtain ⟨hp', hv', hblk', hview'⟩ := roundCall_view (roundKind n) st (n % 16) n hp hv
    refine ⟨hp', hv', ?_, ?_⟩
    · rw [hview']
      by_cases h16 : n < 16
      · have hw : st.block.getD (n % 16) 0 = (refSchedule block).getD n 0 :=
          hblk.2 n (by omega) (by omega)
        have hF : refF n st.view.b st.view.c st.view.d
            = (st.view.b &&& (st.view.c ^^^ st.view.d)) ^^^ st.view.d := by
          simp [refF, show n < 20 by omega]
        have hK : refK n = 0x5a827999 := by simp [refK, show n < 20 by omega]
        rw [roundKind_R0 h16]
        simp only [R0, refRound, hw, hF, hK, round_sum]
      · have hext := blockInv_extend block hb n (by omega) (by omega) st.block hblk
        have hi : n % 16 < st.block.length := by rw [hblk.1]; omega
        by_cases h20 : n < 20
        · have hF : refF n st.view.b st.view.c st.view.d
              = (st.view.b &&& (st.view.c ^^^ st.view.d)) ^^^ st.view.d := by
            simp [refF, h20]
          have hK : refK n = 0x5a827999 := by simp [refK, h20]
          rw [roundKind_R1 (by omega) h20]
          simp only [R1, refRound, set_getD_self _ _ _ hi, hext.1, hF, hK, round_sum]
        · by_cases h40 : n < 40
          · have hF : refF n st.view.b st.view.c st.view.d
                = st.view.b ^^^ st.view.c ^^^ st.view.d := by
              simp [refF, h20, h40]
            have hK : refK n = 0x6ed9eba1 := by simp [refK, h20, h40]
            rw [roundKind_R2 (by omega) h40]
            simp only [R2, refRound, set_getD_self _ _ _ hi, hext.1, hF, hK, round_sum]
          · by_cases h60 : n < 60
            · have hF : refF n st.view.b st.view.c st.view.d
                  = ((st.view.b ||| st.view.c) &&& st.view.d) ||| (st.view.b &&& st.view.c) := by
                simp [refF, h20, h40, h60, maj_eq]
              have hK : refK n = 0x8f1bbcdc := by simp [refK, h20, h40, h60]
              rw [roundKind_R3 (by omega) h60]
              simp only [R3, refRound, set_getD_self _ _ _ hi, hext.1, hF, hK, round_sum]
            · have hF : refF n st.view.b st.view.c st.view.d
                  = st.view.b ^^^ st.view.c ^^^ st.view.d := by
                simp [refF, h20, h40, h60]
              have hK : refK n = 0xca62c1d6 := by simp [refK, h20, h40, h60]
              rw [roundKind_R4 (by omega)]
              simp only [R4, refRound, set_getD_self _ _ _ hi, hext.1, hF, hK, round_sum]
    · rw [hblk']
      by_cases h16 : n < 16
      · rw [roundKind_R0 h16]
        refine ⟨hblk.1, ?_⟩
        intro s hs1 hs2
        exact hblk.2 s (by omega) (by omega)
      · have hext := blockInv_extend block hb n (by omega) (by omega) st.block hblk
        by_cases h20 : n < 20
        · rw [roundKind_R1 (by omega) h20]; exact hext.2
        · by_cases h40 : n < 40
          · rw [roundKind_R2 (by omega) h40]; exact hext.2
          · by_cases h60 : n < 60
            · rw [roundKind_R3 (by omega) h60]; exact hext.2
            · rw [roundKind_R4 (by omega)]; exact hext.2

/-- The in-place, pointer-rotating `transform` computes the reference
compression function, leaves a 16-word block array and counts one block. -/
theorem transform_eq_refCompress (digest : Digest) (block : List Nat) (transforms : Nat)
    (hb : block.length = 16) :
    (transform digest block transforms).1 = refCompress digest block ∧
    (transform digest block transforms).2.1.length = 16 ∧
    (transform digest block transforms).2.2 = (transforms + 1) % 2 ^ 64 := by
  obtain ⟨hp, hv, hview, hblk⟩ := codeRounds_inv digest block hb 80 (Nat.le_refl 80)
  rw [transform_as_codeRounds]
  generalize codeRoundsFrom 0 80 (initWork digest block) = st at hp hv hview hblk ⊢
  refine ⟨?_, hblk.1, rfl⟩
  have hp0 : st.p = [0, 1, 2, 3, 4] := by rw [hp]; rfl
  simp only [refCompress, ← hview, Work.view, Work.deref, hp0, List.getD_cons_zero,
    List.getD_cons_succ]

theorem refBlocks_eq (msg : List Nat) : refBlocks msg = blocksWith refWords msg := rfl

theorem blocksWith_nil (f : List Nat → List Nat) (msg : List Nat) (h : msg.length < 64) :
    blocksWith f msg = [] := by
  simp [blocksWith, Nat.div_eq_of_lt h]

theorem blocksWith_cons (f : List Nat → List Nat) (msg : List Nat) (h : 64 ≤ msg.length) :
    blocksWith f msg = f (msg.take 64) :: blocksWith f (msg.drop 64) := by
  unfold blocksWith
  have e : msg.length / 64 = (msg.drop 64).length / 64 + 1 := by
    rw [List.length_drop]; omega
  rw [e, List.range_succ_eq_map, List.map_cons, List.map_map]
  congr 1
  apply List.map_congr_left
  intro i _
  simp only [Function.comp, List.drop_drop]
  have e2 : 64 * i.succ = 64 + 64 * i := by rw [Nat.succ_eq_add_one]; omega
  rw [e2]

theorem blocksWith_append (f : List Nat → List Nat) (n : Nat) :
    ∀ a b : List Nat, a.length = 64 * n →
      blocksWith f (a ++ b) = blocksWith f a ++ blocksWith f b := by
  induction n with
  | zero =>
    intro a b h
    have : a = [] := List.length_eq_zero.mp (by simpa using h)
    subst this
    simp [blocksWith]
  | succ n ih =>
    intro a b h
    have h64 : 64 ≤ a.length := by omega
    rw [blocksWith_cons f (a ++ b) (by rw [List.length_append]; omega), blocksWith_cons f a h64,
      List.take_append_of_le_length h64, List.drop_append_of_le_length h64,
      ih (a.drop 64) b (by rw [List.length_drop]; omega)]
    rfl

theorem buffer_to_block_length (buffer : List Nat) : (buffer_to_block buffer).length = 16 := by
  simp [buffer_to_block, BLOCK_INTS]

theorem refWords_length (bytes : List Nat) : (refWords bytes).length = 16 := by
  simp [refWords]

/-- The loop of `update` entered with an empty pending buffer and the cursor
inside `data` returns normally: it has folded `transform` over the 64-byte
blocks to the right of the cursor and keeps the remaining bytes. -/
theorem updateLoop_empty (data : List Nat) : ∀ (fuel idx : Nat) (s : Engine),
    s.buffer = [] → idx ≤ data.length → (data.length - idx) / 64 < fuel →
    updateLoop data fuel idx s = .ok
      { digest := (foldTransform (s.digest, s.transforms)
          (blocksWith buffer_to_block (data.drop idx))).1,
        buffer := data.drop (idx + 64 * ((data.length - idx) / 64)),
        transforms := (foldTransform (s.digest, s.transforms)
          (blocksWith buffer_to_block (data.drop idx))).2 } := by
  intro fuel
  induction fuel with
  | zero => intro idx s _ _ h; omega
  | succ fuel ih =>
    intro idx s hb hidx hfuel
    obtain ⟨dg, buf, tr⟩ := s
    simp only at hb
    subst hb
    unfold updateLoop
    by_cases hlt : data.length - idx < 64
    · have hlen : ([] ++ List.take (min (data.length - idx) BLOCK_BYTES) (List.drop idx data)).length
          ≠ BLOCK_BYTES := by
        simp [BLOCK_BYTES, BLOCK_INTS]; omega
      have h0 : (data.length - idx) / 64 = 0 := Nat.div_eq_of_lt hlt
      simp only [hlen, ne_eq, not_false_eq_true, ↓reduceIte]
      rw [blocksWith_nil _ _ (by rw [List.length_drop]; exact hlt), h0]
      simp [foldTransform, BLOCK_BYTES, BLOCK_INTS]
      omega
    · have hmin : min (data.length - idx) BLOCK_BYTES = 64 := by
        simp [BLOCK_BYTES, BLOCK_INTS]; omega
      have hlen : ([] ++ List.take (min (data.length - idx) BLOCK_BYTES) (List.drop idx data)).length
          = BLOCK_BYTES := by
        rw [hmin]; simp [BLOCK_BYTES, BLOCK_INTS]; omega
      have hadv : idx + BLOCK_BYTES ≤ data.length := by
        simp [BLOCK_BYTES, BLOCK_INTS]; omega
      simp only [hlen, ne_eq, not_true_eq_false, ↓reduceIte, hadv]
      rw [ih _ _ rfl hadv (by simp [BLOCK_BYTES, BLOCK_INTS]; omega)]
      rw [blocksWith_cons buffer_to_block (data.drop idx) (by rw [List.length_drop]; omega)]
      simp only [hmin, List.nil_append, List.drop_drop, foldTransform, List.foldl_cons,
        BLOCK_BYTES, BLOCK_INTS]
      have e1 : (data.length - idx) ⊓ 16 * 4 = 64 := by omega
      have e2 : idx + 16 * 4 + 64 * ((data.length - (idx + 16 * 4)) / 64)
          = idx + 64 * ((data.length - idx) / 64) := by omega
      have e3 : idx + 16 * 4 = idx + 64 := by omega
      rw [e1, e2, e3]

/-! ### Bytes and words -/

theorem or_shift_eq_add (a b i : Nat) (hb : b < 2 ^ i) : b ||| a <<< i = a * 2 ^ i + b := by
  rw [Nat.or_comm, Nat.shiftLeft_eq, Nat.mul_comm a, ← Nat.mul_add_lt_is_or hb]

theorem and_ff (b : Nat) : b &&& 0xff = b % 256 :=
  Nat.and_pow_two_sub_one_eq_mod b 8

/-- The word assembled by `buffer_to_block` from four bytes is their big-endian value. -/
theorem word_eq (b0 b1 b2 b3 : Nat) (h0 : b0 < 256) (h1 : b1 < 256) (h2 : b2 < 256)
    (h3 : b3 < 256) :
    ((b3 &&& 0xff) ||| (b2 &&& 0xff) <<< 8 ||| (b1 &&& 0xff) <<< 16 ||| (b0 &&& 0xff) <<< 24)
      % 2 ^ 32 = b0 * 2 ^ 24 + b1 * 2 ^ 16 + b2 * 2 ^ 8 + b3 := by
  rw [and_ff, and_ff, and_ff, and_ff, Nat.mod_eq_of_lt h0, Nat.mod_eq_of_lt h1,
    Nat.mod_eq_of_lt h2, Nat.mod_eq_of_lt h3]
  rw [or_shift_eq_add b2 b3 8 (by omega), or_shift_eq_add b1 _ 16 (by omega),
    or_shift_eq_add b0 _ 24 (by omega)]
  omega

theorem getD_lt_of_bytes (l : List Nat) (h : ∀ b ∈ l, b < 256) (i : Nat) : l.getD i 0 < 256 := by
  rw [List.getD_eq_getElem?_getD]
  cases hi : l[i]? with
  | none => simp
  | some v => simpa using h v (List.getElem?_mem hi)

theorem buffer_to_block_eq_refWords (buffer : List Nat) (h : ∀ b ∈ buffer, b < 256) :
    buffer_to_block buffer = refWords buffer := by
  unfold buffer_to_block refWords BLOCK_INTS
  apply List.map_congr_left
  intro i _
  exact word_eq _ _ _ _ (getD_lt_of_bytes _ h _) (getD_lt_of_bytes _ h _)
    (getD_lt_of_bytes _ h _) (getD_lt_of_bytes _ h _)

theorem wordBytes_of_bytes (b0 b1 b2 b3 : Nat) (h0 : b0 < 256) (h1 : b1 < 256) (h2 : b2 < 256)
    (h3 : b3 < 256) :
    wordBytes (b0 * 2 ^ 24 + b1 * 2 ^ 16 + b2 * 2 ^ 8 + b3) = [b3, b2, b1, b0] := by
  unfold wordBytes
  have e0 : (b0 * 2 ^ 24 + b1 * 2 ^ 16 + b2 * 2 ^ 8 + b3) % 256 = b3 := by omega
  have e1 : (b0 * 2 ^ 24 + b1 * 2 ^ 16 + b2 * 2 ^ 8 + b3) / 2 ^ 8 % 256 = b2 := by omega
  have e2 : (b0 * 2 ^ 24 + b1 * 2 ^ 16 + b2 * 2 ^ 8 + b3) / 2 ^ 16 % 256 = b1 := by omega
  have e3 : (b0 * 2 ^ 24 + b1 * 2 ^ 16 + b2 * 2 ^ 8 + b3) / 2 ^ 24 % 256 = b0 := by omega
  rw [e0, e1, e2, e3]

theorem wordBytes_bswap32 (w : Nat) : wordBytes (bswap32 w) = refWordBE w := by
  unfold bswap32 refWordBE
  exact wordBytes_of_bytes _ _ _ _ (Nat.mod_lt _ (by decide)) (Nat.mod_lt _ (by decide))
    (Nat.mod_lt _ (by decide)) (Nat.mod_lt _ (by decide))

theorem serialize_eq (d : Digest) :
    serialize d = refWordBE d.h0 ++ refWordBE d.h1 ++ refWordBE d.h2 ++ refWordBE d.h3
      ++ refWordBE d.h4 := by
  simp [serialize, wordBytes_bswap32]

theorem serialize_length (d : Digest) : (serialize d).length = 20 := by
  simp [serialize_eq, refWordBE]

/-! ### The padding loop -/

theorem padLoop_eq : ∀ (fuel : Nat) (buffer : List Nat), 64 - buffer.length < fuel →
    padLoop fuel buffer = some (buffer ++ List.replicate (64 - buffer.length) 0) := by
  intro fuel
  induction fuel with
  | zero => intro buffer h; omega
  | succ fuel ih =>
    intro buffer h
    unfold padLoop
    by_cases hlt : buffer.length < 64
    · have hlt' : buffer.length < BLOCK_BYTES := hlt
      simp only [hlt', ↓reduceIte]
      rw [ih _ (by simp; omega)]
      have e : 64 - buffer.length = (64 - (buffer ++ [0]).length) + 1 := by simp; omega
      rw [e, List.replicate_succ]
      simp
    · have hlt' : ¬ buffer.length < BLOCK_BYTES := hlt
      have e : 64 - buffer.length = 0 := by omega
      simp [hlt', e]

theorem refWords_explicit (X : List Nat) :
    refWords X = [wordAt X 0, wordAt X 1, wordAt X 2, wordAt X 3, wordAt X 4, wordAt X 5,
      wordAt X 6, wordAt X 7, wordAt X 8, wordAt X 9, wordAt X 10, wordAt X 11, wordAt X 12,
      wordAt X 13, wordAt X 14, wordAt X 15] := rfl

theorem wordAt_congr (X Y : List Nat) (n i : Nat) (hi : 4 * i + 3 < n)
    (h : ∀ j, j < n → X.getD j 0 = Y.getD j 0) : wordAt X i = wordAt Y i := by
  unfold wordAt
  rw [h (4 * i) (by omega), h (4 * i + 1) (by omega), h (4 * i + 2) (by omega),
    h (4 * i + 3) (by omega)]

theorem be64_hi (tb : Nat) (h : tb < 2 ^ 64) :
    tb / 2 ^ 56 % 256 * 2 ^ 24 + tb / 2 ^ 48 % 256 * 2 ^ 16 + tb / 2 ^ 40 % 256 * 2 ^ 8
      + tb / 2 ^ 32 % 256 = tb >>> 32 % 2 ^ 32 := by
  rw [Nat.shiftRight_eq_div_pow]
  omega

theorem be64_lo (tb : Nat) :
    tb / 2 ^ 24 % 256 * 2 ^ 24 + tb / 2 ^ 16 % 256 * 2 ^ 16 + tb / 2 ^ 8 % 256 * 2 ^ 8
      + tb % 256 = tb % 2 ^ 32 := by
  omega

theorem wordAt_be64 (T : List Nat) (hT : T.length = 56) (tb : Nat) (h : tb < 2 ^ 64) :
    wordAt (T ++ refBE64 tb) 14 = tb >>> 32 % 2 ^ 32 ∧
    wordAt (T ++ refBE64 tb) 15 = tb % 2 ^ 32 := by
  unfold wordAt
  rw [← be64_hi tb h, ← be64_lo tb]
  rw [List.getD_append_right _ _ _ _ (by omega), List.getD_append_right _ _ _ _ (by omega),
    List.getD_append_right _ _ _ _ (by omega), List.getD_append_right _ _ _ _ (by omega),
    List.getD_append_right _ _ _ _ (by omega), List.getD_append_right _ _ _ _ (by omega),
    List.getD_append_right _ _ _ _ (by omega), List.getD_append_right _ _ _ _ (by omega)]
  simp only [hT]
  exact ⟨rfl, rfl⟩

/-- Overwriting words 14 and 15 of a decoded block with the bit length gives
the decoding of the block whose last eight bytes are the big-endian length. -/
theorem refWords_append_be64 (T U : List Nat) (hT : T.length = 56) (tb : Nat) (h : tb < 2 ^ 64) :
    ((refWords (T ++ U)).set 15 (tb % 2 ^ 32)).set 14 (tb >>> 32 % 2 ^ 32)
      = refWords (T ++ refBE64 tb) := by
  have hc : ∀ i, 4 * i + 3 < 56 → wordAt (T ++ U) i = wordAt (T ++ refBE64 tb) i := by
    intro i hi
    apply wordAt_congr _ _ 56 i hi
    intro j hj
    rw [List.getD_append _ _ _ _ (by omega), List.getD_append _ _ _ _ (by omega)]
  obtain ⟨h14, h15⟩ := wordAt_be64 T hT tb h
  rw [refWords_explicit, refWords_explicit, h14, h15]
  simp only [List.set_cons_succ, List.set_cons_zero]
  rw [hc 0 (by omega), hc 1 (by omega), hc 2 (by omega), hc 3 (by omega), hc 4 (by omega),
    hc 5 (by omega), hc 6 (by omega), hc 7 (by omega), hc 8 (by omega), hc 9 (by omega),
    hc 10 (by omega), hc 11 (by omega), hc 12 (by omega), hc 13 (by omega)]

theorem getD_replicate_zero (n j : Nat) : (List.replicate n 0).getD j 0 = 0 := by
  rw [List.getD_eq_getElem?_getD, List.getElem?_replicate]
  split <;> rfl

theorem list_length_sixteen {α : Type} (l : List α) (h : l.length = 16) :
    ∃ x0 x1 x2 x3 x4 x5 x6 x7 x8 x9 x10 x11 x12 x13 x14 x15,
      l = [x0, x1, x2, x3, x4, x5, x6, x7, x8, x9, x10, x11, x12, x13, x14, x15] := by
  match l, h with
  | [x0, x1, x2, x3, x4, x5, x6, x7, x8, x9, x10, x11, x12, x13, x14, x15], _ =>
    exact ⟨x0, x1, x2, x3, x4, x5, x6, x7, x8, x9, x10, x11, x12, x13, x14, x15, rfl⟩

/-- The block array zeroed after the first transform of `final` and then given
the bit length is the decoding of 56 zero bytes followed by the big-endian length. -/
theorem zeroLoop_be64 (blk : List Nat) (hb : blk.length = 16) (tb : Nat) (h : tb < 2 ^ 64) :
    ((zeroLoop blk).set 15 (tb % 2 ^ 32)).set 14 (tb >>> 32 % 2 ^ 32)
      = refWords (List.replicate 56 0 ++ refBE64 tb) := by
  obtain ⟨x0, x1, x2, x3, x4, x5, x6, x7, x8, x9, x10, x11, x12, x13, x14, x15, rfl⟩ :=
    list_length_sixteen blk hb
  obtain ⟨h14, h15⟩ := wordAt_be64 (List.replicate 56 0) (List.length_replicate 56 0) tb h
  have hz : ∀ i, 4 * i + 3 < 56 → wordAt (List.replicate 56 0 ++ refBE64 tb) i = 0 := by
    intro i hi
    unfold wordAt
    have hl : (List.replicate 56 0).length = 56 := List.length_replicate 56 0
    rw [List.getD_append _ _ _ _ (by omega), List.getD_append _ _ _ _ (by omega),
      List.getD_append _ _ _ _ (by omega), List.getD_append _ _ _ _ (by omega),
      getD_replicate_zero, getD_replicate_zero, getD_replicate_zero, getD_replicate_zero]
    simp
  rw [refWords_explicit, h14, h15, hz 0 (by omega), hz 1 (by omega), hz 2 (by omega),
    hz 3 (by omega), hz 4 (by omega), hz 5 (by omega), hz 6 (by omega), hz 7 (by omega),
    hz 8 (by omega), hz 9 (by omega), hz 10 (by omega), hz 11 (by omega), hz 12 (by omega),
    hz 13 (by omega)]
  rfl

theorem totalBits_lt (s : Engine) : totalBits s < 2 ^ 64 :=
  Nat.mod_lt _ (by decide)

theorem reset_eq_fresh (s : Engine) : reset s = fresh := rfl

theorem refZeros_small (n : Nat) (h : n ≤ 55) : refZeros n = 55 - n := by
  unfold refZeros; omega

theorem refZeros_large (n : Nat) (h1 : 56 ≤ n) (h2 : n < 64) : refZeros n = 119 - n := by
  unfold refZeros; omega

theorem bytes_append_pad (B : List Nat) (hb : ∀ b ∈ B, b < 256) (k : Nat) :
    ∀ b ∈ B ++ [0x80] ++ List.replicate k 0, b < 256 := by
  intro b hmem
  simp only [List.mem_append, List.mem_singleton, List.mem_replicate] at hmem
  rcases hmem with (h | h) | h
  · exact hb b h
  · omega
  · omega

theorem blocksWith_one (f : List Nat → List Nat) (P : List Nat) (h : P.length = 64) :
    blocksWith f P = [f P] := by
  rw [blocksWith_cons f P (by omega), blocksWith_nil f _ (by rw [List.length_drop]; omega),
    List.take_of_length_le (by omega)]

theorem blocksWith_two (f : List Nat → List Nat) (P Q : List Nat) (hP : P.length = 64)
    (hQ : Q.length = 64) : blocksWith f (P ++ Q) = [f P, f Q] := by
  rw [blocksWith_append f 1 P Q (by omega), blocksWith_one f P hP, blocksWith_one f Q hQ]
  rfl

theorem blocksWith_length (f : List Nat → List Nat) (msg : List Nat) :
    (blocksWith f msg).length = msg.length / 64 := by
  simp [blocksWith]

/-- The function `rol` is circular left rotation of a 32-bit word: the low
`32 - n` bits move up by `n` places and the top `n` bits re-enter at the bottom. -/
theorem rol_eq_rotate (x n : Nat) (hx : x < 2 ^ 32) (hn : n ≤ 32) :
    rol x n = 2 ^ n * (x % 2 ^ (32 - n)) + x / 2 ^ (32 - n) := by
  have hpow : (2 : Nat) ^ 32 = 2 ^ n * 2 ^ (32 - n) := by
    rw [← Nat.pow_add]; congr 1; omega
  have hlow : x / 2 ^ (32 - n) < 2 ^ n := by
    apply Nat.div_lt_of_lt_mul
    rw [Nat.mul_comm, ← hpow]
    exact hx
  have hmod : x % 2 ^ (32 - n) < 2 ^ (32 - n) := Nat.mod_lt _ (Nat.pos_pow_of_pos _ (by decide))
  unfold rol
  rw [Nat.shiftLeft_eq, Nat.shiftRight_eq_div_pow, Nat.mul_comm x, hpow, Nat.mul_mod_mul_left,
    ← Nat.mul_add_lt_is_or hlow]
  apply Nat.mod_eq_of_lt
  calc 2 ^ n * (x % 2 ^ (32 - n)) + x / 2 ^ (32 - n)
      < 2 ^ n * (x % 2 ^ (32 - n)) + 2 ^ n := Nat.add_lt_add_left hlow _
    _ = 2 ^ n * (x % 2 ^ (32 - n) + 1) := by rw [Nat.mul_add, Nat.mul_one]
    _ ≤ 2 ^ n * 2 ^ (32 - n) := Nat.mul_le_mul_left _ hmod

/-- The number `refZeros n` is the fewest zero bytes that make the padded
length `n + 1 + k + 8` a multiple of 64. -/
theorem refZeros_least (n : Nat) :
    (n + 1 + refZeros n + 8) % 64 = 0 ∧ ∀ k, k < refZeros n → (n + 1 + k + 8) % 64 ≠ 0 := by
  unfold refZeros
  constructor
  · omega
  · intro k hk
    omega

theorem refPad_length (S : List Nat) : (refPad S).length % 64 = 0 := by
  have h := (refZeros_least S.length).1
  simp only [refPad, refBE64, List.length_append, List.length_replicate, List.length_cons,
    List.length_nil]
  omega

/-! ## Totality of final -/

/-- On every state `final` returns: the padding loop never runs out of fuel,
the result is a serialized digest and the engine is left fresh. -/
theorem final_some (s : Engine) : ∃ d : Digest, final s = some (serialize d, fresh) := by
  unfold final finalFuel
  dsimp only
  rw [padLoop_eq _ _ (by simp only [BLOCK_BYTES, BLOCK_INTS]; omega)]
  dsimp only
  rw [reset_eq_fresh]
  exact ⟨_, rfl⟩

/-! ## Published test vectors -/

theorem refDigest_empty :
    toHex (refDigest []) = "da39a3ee5e6b4b0d3255bfef95601890afd80709" := by
  decide!

theorem refDigest_abc :
    toHex (refDigest [97, 98, 99]) = "a9993e364706816aba3e25717850c26c9cd0d89d" := by
  decide!

theorem final_fresh_bytes :
    (final fresh).map (fun r => r.1) =
      some [0xda, 0x39, 0xa3, 0xee, 0x5e, 0x6b, 0x4b, 0x0d, 0x32, 0x55,
            0xbf, 0xef, 0x95, 0x60, 0x18, 0x90, 0xaf, 0xd8, 0x07, 0x09] := by
  decide!

theorem toHex_empty_digest :
    toHex [0xda, 0x39, 0xa3, 0xee, 0x5e, 0x6b, 0x4b, 0x0d, 0x32, 0x55,
           0xbf, 0xef, 0x95, 0x60, 0x18, 0x90, 0xaf, 0xd8, 0x07, 0x09]
      = "da39a3ee5e6b4b0d3255bfef95601890afd80709" := by
  decide!

/-! ## The loop of update in general -/

/-- One iteration of the loop of `update` that takes the `return`. -/
theorem updateLoop_return (data : List Nat) (fuel idx : Nat) (s : Engine)
    (h : (s.buffer ++ (data.drop idx).take (min (data.length - idx) BLOCK_BYTES)).length
      ≠ BLOCK_BYTES) :
    updateLoop data (fuel + 1) idx s = .ok
      { s with buffer := s.buffer ++ (data.drop idx).take (min (data.length - idx) BLOCK_BYTES) } := by
  unfold updateLoop
  simp only [h, ne_eq, not_false_eq_true, ↓reduceIte]

/-- One iteration of the loop of `update` that transforms a block. -/
theorem updateLoop_block (data : List Nat) (fuel idx : Nat) (s : Engine)
    (h : (s.buffer ++ (data.drop idx).take (min (data.length - idx) BLOCK_BYTES)).length
      = BLOCK_BYTES) :
    updateLoop data (fuel + 1) idx s =
      if idx + BLOCK_BYTES ≤ data.length then
        updateLoop data fuel (idx + BLOCK_BYTES)
          (Engine.mk
            (transform s.digest (buffer_to_block
              (s.buffer ++ (data.drop idx).take (min (data.length - idx) BLOCK_BYTES)))
              s.transforms).1
            []
            (transform s.digest (buffer_to_block
              (s.buffer ++ (data.drop idx).take (min (data.length - idx) BLOCK_BYTES)))
              s.transforms).2.2)
      else .error Fault.cursorPastEnd := by
  rw [updateLoop]
  simp only [h, ne_eq, not_true_eq_false, ↓reduceIte]

/-- The loop of `update` only returns through `if (buffer.size() != BLOCK_BYTES) return;`. -/
theorem updateLoop_ok_length (data : List Nat) : ∀ (fuel idx : Nat) (s s' : Engine),
    updateLoop data fuel idx s = .ok s' → s'.buffer.length ≠ BLOCK_BYTES := by
  intro fuel
  induction fuel with
  | zero => intro idx s s' h; simp [updateLoop] at h
  | succ fuel ih =>
    intro idx s s' h
    by_cases hlen : (s.buffer ++ (data.drop idx).take (min (data.length - idx) BLOCK_BYTES)).length
        = BLOCK_BYTES
    · rw [updateLoop_block data fuel idx s hlen] at h
      by_cases hadv : idx + BLOCK_BYTES ≤ data.length
      · rw [if_pos hadv] at h
        exact ih _ _ _ h
      · rw [if_neg hadv] at h
        simp at h
    · rw [updateLoop_return data fuel idx s hlen] at h
      simp only [Except.ok.injEq] at h
      subst h
      exact hlen

/-- The fuel given to the loop by `update` is never exhausted. -/
theorem updateLoop_fuel (data : List Nat) : ∀ (fuel idx : Nat) (s : Engine),
    idx ≤ data.length → (data.length - idx) / 64 < fuel →
    updateLoop data fuel idx s ≠ .error Fault.outOfFuel := by
  intro fuel
  induction fuel with
  | zero => intro idx s _ h; omega
  | succ fuel ih =>
    intro idx s hidx hfuel
    by_cases hlen : (s.buffer ++ (data.drop idx).take (min (data.length - idx) BLOCK_BYTES)).length
        = BLOCK_BYTES
    · rw [updateLoop_block data fuel idx s hlen]
      by_cases hadv : idx + BLOCK_BYTES ≤ data.length
      · rw [if_pos hadv]
        have h64 : BLOCK_BYTES = 64 := rfl
        rw [h64] at hadv ⊢
        exact ih _ _ hadv (by omega)
      · rw [if_neg hadv]
        simp
    · rw [updateLoop_return data fuel idx s hlen]
      simp

theorem update_fuel (s : Engine) (data : List Nat) : update s data ≠ .error Fault.outOfFuel := by
  unfold update
  have h64 : BLOCK_BYTES = 64 := rfl
  rw [h64]
  exact updateLoop_fuel data _ 0 s (Nat.zero_le _) (by omega)

/-- A short update only appends to the pending buffer. -/
theorem update_short (s : Engine) (data : List Nat) (h : s.buffer.length + data.length < 64) :
    update s data = .ok { s with buffer := s.buffer ++ data } := by
  have h64 : BLOCK_BYTES = 64 := rfl
  have hmin : min (data.length - 0) BLOCK_BYTES = data.length := by rw [h64]; omega
  have htake : (data.drop 0).take (min (data.length - 0) BLOCK_BYTES) = data := by
    rw [hmin, List.drop_zero, List.take_length]
  unfold update
  rw [updateLoop_return data _ 0 s (by rw [htake, List.length_append, h64]; omega), htake]

/-- An empty update on a state whose buffer does not hold exactly 64 bytes changes nothing. -/
theorem update_nil (s : Engine) (h : s.buffer.length ≠ 64) : update s [] = .ok s := by
  have h64 : BLOCK_BYTES = 64 := rfl
  unfold update
  rw [updateLoop_return [] _ 0 s (by simpa [h64] using h)]
  simp

theorem update_ok_length (s s' : Engine) (data : List Nat) (h : update s data = .ok s') :
    s'.buffer.length ≠ 64 :=
  updateLoop_ok_length data _ 0 s s' h

theorem transform_count (d : Digest) (b : List Nat) (t : Nat) :
    (transform d b t).2.2 = (t + 1) % 2 ^ 64 := rfl

theorem foldTransform_count_mod : ∀ (bs : List (List Nat)) (acc : Digest × Nat),
    acc.2 < 2 ^ 64 → (foldTransform acc bs).2 = (acc.2 + bs.length) % 2 ^ 64 := by
  intro bs
  induction bs with
  | nil =>
    intro acc h
    simp only [foldTransform, List.foldl_nil, List.length_nil, Nat.add_zero]
    exact (Nat.mod_eq_of_lt h).symm
  | cons b bs ih =>
    intro acc h
    simp only [foldTransform, List.foldl_cons] at ih ⊢
    rw [ih _ (by simp only [transform_count]; exact Nat.mod_lt _ (by decide)), transform_count,
      List.length_cons]
    omega

/-- What `update` does on a state whose pending buffer is empty. -/
theorem update_empty (s : Engine) (data : List Nat) (hbuf : s.buffer = [])
    (hc : s.transforms < 2 ^ 64) :
    update s data = .ok
      (Engine.mk
        (foldTransform (s.digest, s.transforms) (blocksWith buffer_to_block data)).1
        (data.drop (64 * (data.length / 64)))
        ((s.transforms + data.length / 64) % 2 ^ 64)) := by
  have h64 : BLOCK_BYTES = 64 := rfl
  unfold update
  rw [updateLoop_empty data _ 0 s hbuf (Nat.zero_le _) (by rw [h64, Nat.sub_zero]; omega)]
  simp only [List.drop_zero, Nat.sub_zero, Nat.zero_add]
  rw [foldTransform_count_mod _ _ hc, blocksWith_length]

/-- The instrumented `final` returns what `final` returns. -/
theorem final_eq_trace (s : Engine) :
    final s = (finalTrace (BLOCK_BYTES + 1) s).map fun t => (t.result, t.state) := by
  unfold final finalFuel finalTrace
  dsimp only
  cases padLoop (BLOCK_BYTES + 1) (s.buffer ++ [0x80]) with
  | none => rfl
  | some buffer =>
    dsimp only
    by_cases h : (s.buffer ++ [0x80]).length > BLOCK_BYTES - 8
    · simp only [h, ↓reduceIte, Option.map_some']
    · simp only [h, ↓reduceIte, Option.map_some']

theorem padLoop_final (s : Engine) :
    padLoop (BLOCK_BYTES + 1) (s.buffer ++ [0x80]) = some (paddedBuffer s) := by
  rw [padLoop_eq _ _ (by simp only [BLOCK_BYTES, BLOCK_INTS]; omega)]
  have e : 64 - (s.buffer ++ [0x80]).length = 63 - s.buffer.length := by simp
  rw [e]
  rfl

/-- The run of `final` when the terminator leaves room for the length field. -/
theorem finalTrace_short (s : Engine) (h : s.buffer.length ≤ 55) :
    finalTrace (BLOCK_BYTES + 1) s = some (FinalTrace.mk
      (serialize (transform s.digest
        (withLength (buffer_to_block (paddedBuffer s)) (totalBits s)) s.transforms).1)
      fresh (totalBits s)
      [withLength (buffer_to_block (paddedBuffer s)) (totalBits s)]
      (transform s.digest
        (withLength (buffer_to_block (paddedBuffer s)) (totalBits s)) s.transforms).1) := by
  have hif : ¬ (s.buffer ++ [0x80]).length > BLOCK_BYTES - 8 := by
    simp [BLOCK_BYTES, BLOCK_INTS]; omega
  unfold finalTrace
  dsimp only
  rw [padLoop_final]
  dsimp only
  rw [if_neg hif, reset_eq_fresh]
  simp only [withLength, totalBits, BLOCK_INTS, List.nil_append]

/-- The run of `final` when a block of its own is needed for the length field. -/
theorem finalTrace_long (s : Engine) (h : 56 ≤ s.buffer.length) :
    finalTrace (BLOCK_BYTES + 1) s = some (FinalTrace.mk
      (serialize (transform (transform s.digest (buffer_to_block (paddedBuffer s)) s.transforms).1
        (withLength (zeroLoop
          (transform s.digest (buffer_to_block (paddedBuffer s)) s.transforms).2.1) (totalBits s))
        (transform s.digest (buffer_to_block (paddedBuffer s)) s.transforms).2.2).1)
      fresh (totalBits s)
      [buffer_to_block (paddedBuffer s),
        withLength (zeroLoop
          (transform s.digest (buffer_to_block (paddedBuffer s)) s.transforms).2.1) (totalBits s)]
      (transform (transform s.digest (buffer_to_block (paddedBuffer s)) s.transforms).1
        (withLength (zeroLoop
          (transform s.digest (buffer_to_block (paddedBuffer s)) s.transforms).2.1) (totalBits s))
        (transform s.digest (buffer_to_block (paddedBuffer s)) s.transforms).2.2).1) := by
  have hif : (s.buffer ++ [0x80]).length > BLOCK_BYTES - 8 := by
    simp [BLOCK_BYTES, BLOCK_INTS]; omega
  unfold finalTrace
  dsimp only
  rw [padLoop_final]
  dsimp only
  rw [if_pos hif, reset_eq_fresh]
  simp only [withLength, totalBits, BLOCK_INTS, List.nil_append, List.singleton_append,
    List.cons_append]

/-! ### The blocks hashed by final -/

theorem refBE64_mod (L : Nat) : refBE64 (L % 2 ^ 64) = refBE64 L := by
  unfold refBE64
  have e0 : L % 2 ^ 64 / 2 ^ 56 % 256 = L / 2 ^ 56 % 256 := by omega
  have e1 : L % 2 ^ 64 / 2 ^ 48 % 256 = L / 2 ^ 48 % 256 := by omega
  have e2 : L % 2 ^ 64 / 2 ^ 40 % 256 = L / 2 ^ 40 % 256 := by omega
  have e3 : L % 2 ^ 64 / 2 ^ 32 % 256 = L / 2 ^ 32 % 256 := by omega
  have e4 : L % 2 ^ 64 / 2 ^ 24 % 256 = L / 2 ^ 24 % 256 := by omega
  have e5 : L % 2 ^ 64 / 2 ^ 16 % 256 = L / 2 ^ 16 % 256 := by omega
  have e6 : L % 2 ^ 64 / 2 ^ 8 % 256 = L / 2 ^ 8 % 256 := by omega
  have e7 : L % 2 ^ 64 % 256 = L % 256 := by omega
  rw [e0, e1, e2, e3, e4, e5, e6, e7]

/-- The bit count of `final` is `512 c + 8 n` reduced modulo `2^64`. -/
theorem totalBits_eq (s : Engine) :
    totalBits s = (512 * s.transforms + 8 * s.buffer.length) % 2 ^ 64 := by
  simp only [totalBits, BLOCK_BYTES, BLOCK_INTS]
  omega

theorem totalBits_hi (s : Engine) :
    totalBits s >>> 32 % 2 ^ 32 = (512 * s.transforms + 8 * s.buffer.length) / 2 ^ 32 % 2 ^ 32 := by
  rw [totalBits_eq, Nat.shiftRight_eq_div_pow]
  omega

theorem totalBits_lo (s : Engine) :
    totalBits s % 2 ^ 32 = (512 * s.transforms + 8 * s.buffer.length) % 2 ^ 32 := by
  rw [totalBits_eq]
  omega

theorem withLength_zeroLoop (blk : List Nat) (hb : blk.length = 16) (tb : Nat) :
    withLength (zeroLoop blk) tb
      = List.replicate 14 0 ++ [tb >>> 32 % 2 ^ 32, tb % 2 ^ 32] := by
  obtain ⟨x0, x1, x2, x3, x4, x5, x6, x7, x8, x9, x10, x11, x12, x13, x14, x15, rfl⟩ :=
    list_length_sixteen blk hb
  rfl

theorem paddedBuffer_bytes (s : Engine) (hb : ∀ b ∈ s.buffer, b < 256) :
    ∀ b ∈ paddedBuffer s, b < 256 :=
  bytes_append_pad s.buffer hb _

/-- One padding block: the block given the length is the decoding of the
buffer, the terminator, the zeros and the big-endian length. -/
theorem final_block_short (s : Engine) (h : s.buffer.length ≤ 55)
    (hb : ∀ b ∈ s.buffer, b < 256) :
    [withLength (buffer_to_block (paddedBuffer s)) (totalBits s)]
      = refBlocks (s.buffer ++ [0x80] ++ List.replicate (refZeros s.buffer.length) 0
          ++ refBE64 (totalBits s)) := by
  have hrep : List.replicate (63 - s.buffer.length) 0
      = List.replicate (55 - s.buffer.length) 0 ++ List.replicate 8 0 := by
    rw [← List.replicate_add]; congr 1; omega
  have hT : (s.buffer ++ [0x80] ++ List.replicate (55 - s.buffer.length) 0).length = 56 := by
    simp; omega
  rw [buffer_to_block_eq_refWords _ (paddedBuffer_bytes s hb), refBlocks_eq,
    refZeros_small _ h, blocksWith_one refWords _ (by simp [refBE64]; omega)]
  unfold paddedBuffer withLength
  rw [hrep, ← List.append_assoc, refWords_append_be64 _ _ hT _ (totalBits_lt s)]

/-- Two padding blocks: the padded buffer, then the zeroed block given the length. -/
theorem final_block_long (s : Engine) (h1 : 56 ≤ s.buffer.length) (h2 : s.buffer.length < 64)
    (hb : ∀ b ∈ s.buffer, b < 256) :
    [buffer_to_block (paddedBuffer s),
      withLength (zeroLoop
        (transform s.digest (buffer_to_block (paddedBuffer s)) s.transforms).2.1) (totalBits s)]
      = refBlocks (s.buffer ++ [0x80] ++ List.replicate (refZeros s.buffer.length) 0
          ++ refBE64 (totalBits s)) := by
  have hrep : List.replicate (119 - s.buffer.length) 0
      = List.replicate (63 - s.buffer.length) 0 ++ List.replicate 56 0 := by
    rw [← List.replicate_add]; congr 1; omega
  have hP : (paddedBuffer s).length = 64 := by
    simp [paddedBuffer]; omega
  have hassoc : s.buffer ++ [0x80]
      ++ (List.replicate (63 - s.buffer.length) 0 ++ List.replicate 56 0)
      ++ refBE64 (totalBits s)
        = paddedBuffer s ++ (List.replicate 56 0 ++ refBE64 (totalBits s)) := by
    simp [paddedBuffer]
  rw [refBlocks_eq, refZeros_large _ h1 h2, hrep, hassoc,
    blocksWith_two refWords _ _ hP (by simp [refBE64]),
    buffer_to_block_eq_refWords _ (paddedBuffer_bytes s hb)]
  unfold withLength
  rw [zeroLoop_be64 _ (transform_eq_refCompress _ _ _ (refWords_length _)).2.1 _ (totalBits_lt s)]

/-! ## Every run of final -/

theorem zeroLoop_length (blk : List Nat) (hb : blk.length = 16) : (zeroLoop blk).length = 16 := by
  obtain ⟨x0, x1, x2, x3, x4, x5, x6, x7, x8, x9, x10, x11, x12, x13, x14, x15, rfl⟩ :=
    list_length_sixteen blk hb
  rfl

theorem withLength_words (blk : List Nat) (hb : blk.length = 16) (tb : Nat) :
    (withLength blk tb).getD 14 0 = tb >>> 32 % 2 ^ 32 ∧
    (withLength blk tb).getD 15 0 = tb % 2 ^ 32 := by
  obtain ⟨x0, x1, x2, x3, x4, x5, x6, x7, x8, x9, x10, x11, x12, x13, x14, x15, rfl⟩ :=
    list_length_sixteen blk hb
  exact ⟨rfl, rfl⟩

/-- On every state the instrumented `final` returns: the result is the
serialization of the digest after the last transform, that digest is the fold
of `transform` over the recorded blocks, and the last recorded block carries
the bit count in words 14 and 15. -/
theorem finalTrace_some (s : Engine) :
    ∃ t, finalTrace (BLOCK_BYTES + 1) s = some t ∧
      t.result = serialize t.digest ∧ t.state = fresh ∧ t.total_bits = totalBits s ∧
      t.digest = (foldTransform (s.digest, s.transforms) t.blocks).1 ∧
      (t.blocks.getLast?.getD []).getD 14 0 = totalBits s >>> 32 % 2 ^ 32 ∧
      (t.blocks.getLast?.getD []).getD 15 0 = totalBits s % 2 ^ 32 := by
  by_cases h : s.buffer.length ≤ 55
  · refine ⟨_, finalTrace_short s h, rfl, rfl, rfl, ?_, ?_⟩
    · simp only [foldTransform, List.foldl_cons, List.foldl_nil]
    · simp only [List.getLast?_singleton, Option.getD_some]
      exact withLength_words _ (buffer_to_block_length _) _
  · refine ⟨_, finalTrace_long s (by omega), rfl, rfl, rfl, ?_, ?_⟩
    · simp only [foldTransform, List.foldl_cons, List.foldl_nil]
    · simp only [List.getLast?_cons_cons, List.getLast?_singleton, Option.getD_some]
      exact withLength_words _ (zeroLoop_length _
        (transform_eq_refCompress _ _ _ (buffer_to_block_length _)).2.1) _

theorem serialize_bytes (d : Digest) (i j : Nat) (hi : i < 5) (hj : j < 4) :
    (serialize d).getD (4 * i + j) 0
      = ([d.h0, d.h1, d.h2, d.h3, d.h4].getD i 0 >>> (8 * (3 - j))) % 256 := by
  rw [serialize_eq]
  unfold refWordBE
  interval_cases i <;> interval_cases j <;>
    simp [Nat.shiftRight_eq_div_pow]

theorem update_fresh_ok (S : List Nat) : ∃ s', update fresh S = .ok s' :=
  ⟨_, update_empty fresh S rfl (by decide)⟩

/-! ## Claims -/

/-- Claim C2 evaluated on the code: the 65 zero bytes hashed as a 1-byte piece
followed by a 64-byte piece give a different digest than hashed in one piece. -/
theorem C2_chunked_digest_differs :
    (digestOf fresh [[0], List.replicate 64 0]).map (Option.map toHex)
      = .ok (some "78bb3d478432fe2046fd98d91832777b701a7ce6") ∧
    (digestOf fresh [List.replicate 65 0]).map (Option.map toHex)
      = .ok (some "f0fa45906bd0f4c3668fcd0d8f68d4b298b30e5b") := by
  decide!

/-- Claim C3: a freshly constructed engine with no update returns from
`final()` the 20 bytes rendered `da39a3ee5e6b4b0d3255bfef95601890afd80709`. -/
theorem C3_empty_digest (uninit : Engine) :
    (final (construct uninit)).map (fun r => r.1) =
      some [0xda, 0x39, 0xa3, 0xee, 0x5e, 0x6b, 0x4b, 0x0d, 0x32, 0x55,
            0xbf, 0xef, 0x95, 0x60, 0x18, 0x90, 0xaf, 0xd8, 0x07, 0x09] ∧
    (final (construct uninit)).map (fun r => toHex r.1)
      = some "da39a3ee5e6b4b0d3255bfef95601890afd80709" := by
  have hc : construct uninit = fresh := rfl
  have hb := final_fresh_bytes
  rw [hc]
  refine ⟨hb, ?_⟩
  cases hf : final fresh with
  | none => rw [hf] at hb; exact absurd hb (by simp)
  | some r =>
    rw [hf] at hb
    simp only [Option.map_some', Option.some.injEq] at hb ⊢
    rw [hb, toHex_empty_digest]

/-- Claim C4 as stated fails: the demo driver does not print the 39 digits
`a9993e364706816aba3e25717850c26c9cd0d89`. -/
theorem C4_stated_rendering_fails :
    demo_main ≠ .ok (some "a9993e364706816aba3e25717850c26c9cd0d89") := by
  decide!

/-- Claim C4, amended: for a fresh engine, `update` with the bytes `a`, `b`, `c`
followed by `final()` returns a digest rendered as the 40 digits
`a9993e364706816aba3e25717850c26c9cd0d89d`. -/
theorem C4_abc_digest :
    demo_main = .ok (some "a9993e364706816aba3e25717850c26c9cd0d89d") := by
  decide!

/-- Claim C5: for every engine state `final()` returns and leaves the freshly
constructed state, which is the state `reset()` produces: the five
initialization constants, an empty pending buffer and block counter 0. -/
theorem C5_final_leaves_fresh_state (s : Engine) :
    (final s).map (fun r => r.2) = some fresh ∧
    fresh = reset s ∧
    fresh.digest = Digest.mk 0x67452301 0xEFCDAB89 0x98BADCFE 0x10325476 0xC3D2E1F0 ∧
    fresh.buffer = [] ∧ fresh.transforms = 0 := by
  obtain ⟨d, hd⟩ := final_some s
  rw [hd]
  exact ⟨rfl, rfl, rfl, rfl, rfl⟩

/-- Claim C6: for every engine state `final()` returns a byte sequence of
length exactly 20. -/
theorem C6_final_returns_20_bytes (s : Engine) :
    ∃ result s', final s = some (result, s') ∧ result.length = 20 := by
  obtain ⟨d, hd⟩ := final_some s
  exact ⟨serialize d, fresh, hd, serialize_length d⟩

/-- Claim C7 evaluated on the code: after `update` with one byte and `update`
with 64 bytes on a fresh engine, both calls return and the pending buffer
holds 65 bytes. -/
theorem C7_pending_buffer_reaches_65 :
    (updateAll fresh [[0], List.replicate 64 0]).map (fun s => s.buffer.length) = .ok 65 := by
  decide!

/-- Claim C8 evaluated on the code: after `update` with one byte and `update`
with 65 bytes on a fresh engine, block counter times 512 plus buffer length
times 8 is 520, while 66 bytes, that is 528 bits, were supplied. -/
theorem C8_length_accounting_loses_bytes :
    (updateAll fresh [[0], List.replicate 65 0]).map
        (fun s => s.transforms * 512 + s.buffer.length * 8) = .ok 520 ∧
    8 * ([0].length + (List.replicate 65 0).length) = 528 := by
  decide!

/-- Claim C9 evaluated on the code: with one byte pending, `update` with 63
bytes moves the read cursor past the end of `data`. -/
theorem C9_cursor_leaves_data :
    update (Engine.mk fresh.digest [0] fresh.transforms) (List.replicate 63 0)
      = .error Fault.cursorPastEnd ∧
    updateAll fresh [[0], List.replicate 63 0] = .error Fault.cursorPastEnd := by
  decide!

/-- Claim C10: for every engine state `reset()` yields the five initialization
constants, an empty pending buffer and block counter 0; the constructor
produces the same state and `reset` is idempotent. -/
theorem C10_reset_state (s : Engine) :
    reset s = Engine.mk
      (Digest.mk 0x67452301 0xEFCDAB89 0x98BADCFE 0x10325476 0xC3D2E1F0) [] 0 ∧
    construct s = reset s ∧ reset (reset s) = reset s :=
  ⟨rfl, rfl, rfl⟩

/-- Claim C11: for every byte sequence `S` and every two engine states, the
digest returned by `reset(); update(S); final()` started from one equals the
one started from the other, and the three calls return. -/
theorem C11_digest_independent_of_history (S : List Nat) (s1 s2 : Engine) :
    digestOf (reset s1) [S] = digestOf (reset s2) [S] ∧
    ∃ d, digestOf (reset s1) [S] = .ok (some d) := by
  rw [reset_eq_fresh, reset_eq_fresh]
  refine ⟨rfl, ?_⟩
  obtain ⟨s', hs'⟩ := update_fresh_ok S
  obtain ⟨d, hd⟩ := final_some s'
  exact ⟨serialize d, by simp only [digestOf, updateAll, hs', hd, Option.map_some']⟩

/-- Claim C12 evaluated on the code: with one byte pending and 63 bytes of
data, no number of iterations brings the loop of `update` to its `return`. -/
theorem C12_update_loop_never_returns (fuel : Nat) (s' : Engine) :
    updateLoop (List.replicate 63 0) fuel 0 (Engine.mk fresh.digest [0] 0) ≠ .ok s' := by
  cases fuel with
  | zero => simp [updateLoop]
  | succ fuel =>
    rw [updateLoop_block _ _ _ _ (by decide), if_neg (by decide)]
    simp

/-- Claim C14: for every engine state with a pending buffer `B` of `n < 64`
bytes and block counter `c`, the blocks `final()` passes to `transform` are the
64-byte chunks, decoded big-endian, of `B ++ [0x80] ++ k zeros ++` the 64-bit
big-endian encoding of `512 c + 8 n`, with `k` least such that
`n + 1 + k = 56 mod 64`: one block when `n <= 55`, two when `56 <= n`, the
second being zero apart from the length field. -/
theorem C14_final_padding_blocks (s : Engine) (hn : s.buffer.length < 64)
    (hb : ∀ b ∈ s.buffer, b < 256) :
    ∃ t, finalTrace (BLOCK_BYTES + 1) s = some t ∧ final s = some (t.result, t.state) ∧
      t.blocks = refBlocks (s.buffer ++ [0x80] ++ List.replicate (refZeros s.buffer.length) 0
        ++ refBE64 (512 * s.transforms + 8 * s.buffer.length)) ∧
      (s.buffer.length + 1 + refZeros s.buffer.length) % 64 = 56 ∧
      (∀ k, k < refZeros s.buffer.length → (s.buffer.length + 1 + k) % 64 ≠ 56) ∧
      (s.buffer.length ≤ 55 → t.blocks.length = 1) ∧
      (56 ≤ s.buffer.length → t.blocks.length = 2 ∧
        t.blocks.getD 1 [] = List.replicate 14 0 ++
          [(512 * s.transforms + 8 * s.buffer.length) / 2 ^ 32 % 2 ^ 32,
           (512 * s.transforms + 8 * s.buffer.length) % 2 ^ 32]) := by
  have hz1 : (s.buffer.length + 1 + refZeros s.buffer.length) % 64 = 56 := by
    unfold refZeros; omega
  have hz2 : ∀ k, k < refZeros s.buffer.length → (s.buffer.length + 1 + k) % 64 ≠ 56 := by
    unfold refZeros; intro k hk; omega
  have hbe : refBE64 (512 * s.transforms + 8 * s.buffer.length) = refBE64 (totalBits s) := by
    rw [totalBits_eq, refBE64_mod]
  by_cases h : s.buffer.length ≤ 55
  · refine ⟨_, finalTrace_short s h, ?_, ?_, hz1, hz2, fun _ => rfl, fun h56 => by omega⟩
    · rw [final_eq_trace, finalTrace_short s h]; rfl
    · rw [hbe]; exact final_block_short s h hb
  · have h56 : 56 ≤ s.buffer.length := by omega
    refine ⟨_, finalTrace_long s h56, ?_, ?_, hz1, hz2, fun h55 => by omega, fun _ => ⟨rfl, ?_⟩⟩
    · rw [final_eq_trace, finalTrace_long s h56]; rfl
    · rw [hbe]; exact final_block_long s h56 hn hb
    · simp only [List.getD_cons_succ, List.getD_cons_zero]
      rw [withLength_zeroLoop _ (transform_eq_refCompress _ _ _ (buffer_to_block_length _)).2.1,
        totalBits_hi, totalBits_lo]

/-- Claim C14 at a 56-byte pending buffer: two blocks are hashed. -/
theorem C14_final_padding_blocks_witness :
    (List.replicate 56 97).length < 64 ∧ (∀ b ∈ List.replicate 56 97, b < 256) ∧
    ∃ t, finalTrace (BLOCK_BYTES + 1) (Engine.mk refInit (List.replicate 56 97) 3) = some t ∧
      t.blocks = refBlocks (List.replicate 56 97 ++ [0x80] ++ List.replicate 63 0
        ++ refBE64 (512 * 3 + 8 * 56)) ∧ t.blocks.length = 2 :=
  ⟨by decide, by decide,
    match C14_final_padding_blocks (Engine.mk refInit (List.replicate 56 97) 3)
      (by decide) (by decide) with
    | ⟨t, h1, _, h3, _, _, _, h7⟩ => ⟨t, h1, h3, (h7 (by decide)).1⟩⟩

/-- Claim C15 evaluated on the code: with one byte pending, `update` with 64
bytes returns with the counter unchanged, the digest unchanged and 65 bytes
pending, although the 65 bytes contain one full block. -/
theorem C15_full_block_left_pending :
    update (Engine.mk fresh.digest [7] 0) (List.replicate 64 0)
      = .ok (Engine.mk fresh.digest (7 :: List.replicate 64 0) 0) ∧
    ([7].length + (List.replicate 64 0).length) / 64 = 1 ∧
    ([7].length + (List.replicate 64 0).length) % 64 = 1 := by
  decide!

/-- Claim C16: for every engine state with pending buffer `B` and every data
with `|B| + |data| < 64`, `update(data)` returns, leaves the digest words and
the block counter unchanged and makes the pending buffer `B ++ data`. -/
theorem C16_short_update_only_buffers (s : Engine) (data : List Nat)
    (h : s.buffer.length + data.length < 64) :
    update s data = .ok (Engine.mk s.digest (s.buffer ++ data) s.transforms) :=
  update_short s data h

/-- Claim C16 at two pending bytes and one byte of data. -/
theorem C16_short_update_only_buffers_witness :
    [1, 2].length + [3].length < 64 ∧
    update (Engine.mk refInit [1, 2] 5) [3] = .ok (Engine.mk refInit [1, 2, 3] 5) :=
  ⟨by decide, C16_short_update_only_buffers (Engine.mk refInit [1, 2] 5) [3] (by decide)⟩

/-- Claim C17: for every engine state with block counter `c` and `n` pending
bytes such that `64 c + n < 2^61`, the bit count `final()` computes in 64-bit
arithmetic is exactly `512 c + 8 n`, word 14 of the last block hashed is its
upper 32 bits and word 15 its lower 32 bits; and for some state with
`64 c + n >= 2^61` the computed value differs from `512 c + 8 n`. -/
theorem C17_bit_length_arithmetic (s : Engine)
    (h : 64 * s.transforms + s.buffer.length < 2 ^ 61) :
    (∃ t, finalTrace (BLOCK_BYTES + 1) s = some t ∧ final s = some (t.result, t.state) ∧
      t.total_bits = 512 * s.transforms + 8 * s.buffer.length ∧
      (t.blocks.getLast?.getD []).getD 14 0
        = (512 * s.transforms + 8 * s.buffer.length) / 2 ^ 32 ∧
      (t.blocks.getLast?.getD []).getD 15 0
        = (512 * s.transforms + 8 * s.buffer.length) % 2 ^ 32) ∧
    ∃ s' : Engine, 2 ^ 61 ≤ 64 * s'.transforms + s'.buffer.length ∧ s'.transforms < 2 ^ 64 ∧
      ∃ t', finalTrace (BLOCK_BYTES + 1) s' = some t' ∧
        t'.total_bits ≠ 512 * s'.transforms + 8 * s'.buffer.length := by
  constructor
  · obtain ⟨t, ht, hres, hst, htb, _, h14, h15⟩ := finalTrace_some s
    have hex : totalBits s = 512 * s.transforms + 8 * s.buffer.length := by
      rw [totalBits_eq]; exact Nat.mod_eq_of_lt (by omega)
    refine ⟨t, ht, ?_, by rw [htb, hex], ?_, ?_⟩
    · rw [final_eq_trace, ht]; rfl
    · rw [h14, hex, Nat.shiftRight_eq_div_pow]
      exact Nat.mod_eq_of_lt (by omega)
    · rw [h15, hex]
  · obtain ⟨t', ht', _, _, htb', _⟩ := finalTrace_some (Engine.mk refInit [] (2 ^ 55))
    refine ⟨Engine.mk refInit [] (2 ^ 55), by decide, by decide, t', ht', ?_⟩
    rw [htb']
    decide

/-- Claim C17 at block counter 3 and two pending bytes. -/
theorem C17_bit_length_arithmetic_witness :
    64 * 3 + [1, 2].length < 2 ^ 61 ∧
    ∃ t, finalTrace (BLOCK_BYTES + 1) (Engine.mk refInit [1, 2] 3) = some t ∧
      t.total_bits = 1552 ∧
      (t.blocks.getLast?.getD []).getD 14 0 = 0 ∧
      (t.blocks.getLast?.getD []).getD 15 0 = 1552 :=
  ⟨by decide,
    match (C17_bit_length_arithmetic (Engine.mk refInit [1, 2] 3) (by decide)).1 with
    | ⟨t, h1, _, h3, h4, h5⟩ => ⟨t, h1, h3, h4, h5⟩⟩

/-- Claim C18: for every engine state, with `D0..D4` the digest words after
the last transform of `final()`, the returned byte at position `4 i + j` is
`(Di >> (8 * (3 - j))) mod 256` for every `i` in `0..4` and `j` in `0..3`. -/
theorem C18_output_serialization (s : Engine) :
    ∃ t, finalTrace (BLOCK_BYTES + 1) s = some t ∧ final s = some (t.result, t.state) ∧
      t.digest = (foldTransform (s.digest, s.transforms) t.blocks).1 ∧
      t.result.length = 20 ∧
      ∀ i j, i < 5 → j < 4 → t.result.getD (4 * i + j) 0
        = ([t.digest.h0, t.digest.h1, t.digest.h2, t.digest.h3, t.digest.h4].getD i 0
            >>> (8 * (3 - j))) % 256 := by
  obtain ⟨t, ht, hres, _, _, hdig, _⟩ := finalTrace_some s
  refine ⟨t, ht, ?_, hdig, ?_, ?_⟩
  · rw [final_eq_trace, ht]; rfl
  · rw [hres]; exact serialize_length _
  · intro i j hi hj
    rw [hres]
    exact serialize_bytes t.digest i j hi hj

/-- Claim C19: for every engine state whose pending buffer is empty and every
data, `update(data)` returns without moving the cursor past the end of `data`;
it has folded `transform` over the `|data| / 64` consecutive 64-byte blocks of
`data`, increased the 64-bit block counter by `|data| / 64` and left the last
`|data| mod 64` bytes of `data` pending. -/
theorem C19_update_on_empty_buffer (s : Engine) (data : List Nat) (hbuf : s.buffer = [])
    (hc : s.transforms < 2 ^ 64) :
    update s data = .ok (Engine.mk
      (foldTransform (s.digest, s.transforms) (blocksWith buffer_to_block data)).1
      (data.drop (data.length - data.length % 64))
      ((s.transforms + data.length / 64) % 2 ^ 64)) ∧
    (blocksWith buffer_to_block data).length = data.length / 64 ∧
    (data.drop (data.length - data.length % 64)).length = data.length % 64 ∧
    (s.transforms + data.length / 64 < 2 ^ 64 →
      (s.transforms + data.length / 64) % 2 ^ 64 = s.transforms + data.length / 64) := by
  have e : data.length - data.length % 64 = 64 * (data.length / 64) := by omega
  refine ⟨?_, blocksWith_length _ _, ?_, fun h => Nat.mod_eq_of_lt h⟩
  · rw [e]; exact update_empty s data hbuf hc
  · rw [List.length_drop]; omega

/-- Claim C19 at 65 bytes of data on a fresh engine: one block is hashed and
one byte is left pending. -/
theorem C19_update_on_empty_buffer_witness :
    fresh.buffer = [] ∧ fresh.transforms < 2 ^ 64 ∧
    update fresh (List.replicate 65 97) = .ok (Engine.mk
      (foldTransform (fresh.digest, fresh.transforms)
        (blocksWith buffer_to_block (List.replicate 65 97))).1
      ((List.replicate 65 97).drop ((List.replicate 65 97).length
        - (List.replicate 65 97).length % 64))
      ((fresh.transforms + (List.replicate 65 97).length / 64) % 2 ^ 64)) :=
  ⟨rfl, by decide,
    (C19_update_on_empty_buffer fresh (List.replicate 65 97) rfl (by decide)).1⟩

/-- Claim C20: `update` with the empty sequence changes nothing on a state
whose pending buffer does not hold exactly 64 bytes, shorter or longer; and
whenever `update` returns, the pending buffer does not hold exactly 64 bytes,
so the empty update is the identity on the state left behind. -/
theorem C20_empty_update_is_identity (s s' : Engine) (data : List Nat) :
    (s.buffer.length ≠ 64 → update s [] = .ok s) ∧
    (update s data = .ok s' → s'.buffer.length ≠ 64 ∧ update s' [] = .ok s') :=
  ⟨update_nil s, fun h =>
    ⟨update_ok_length s s' data h, update_nil s' (update_ok_length s s' data h)⟩⟩

/-- Claim C20 at a state left behind with 65 pending bytes. -/
theorem C20_empty_update_is_identity_witness :
    update (Engine.mk refInit [7] 0) (List.replicate 64 0)
      = .ok (Engine.mk refInit (7 :: List.replicate 64 0) 0) ∧
    (7 :: List.replicate 64 0).length ≠ 64 ∧
    update (Engine.mk refInit (7 :: List.replicate 64 0) 0) []
      = .ok (Engine.mk refInit (7 :: List.replicate 64 0) 0) :=
  ⟨by decide!,
    (C20_empty_update_is_identity (Engine.mk refInit [7] 0)
      (Engine.mk refInit (7 :: List.replicate 64 0) 0) (List.replicate 64 0)).2 (by decide!)⟩

end SHA1
